import Mathlib

/-!
Shallow embedding of the maze solver in `src/main.py` (adamkohazi/codein-wayout).

Conventions of the embedding:
* Python `int` coordinates are `Int`; travel distances, scores and par values,
  which the program only ever builds from positive literals and sums, are `Nat`.
* A maze grid is a total function `Nat → Nat → String` giving the single-character
  tile string stored at `grid[y][x]`; the program guards every access by a bounds
  check, so the values outside `0..16` are never consulted by the embedded code.
* Python object identity (`is` / `is not`) has no functional counterpart; where the
  source compares identities we model the comparison that CPython actually computes
  (see `findSteps` and the branch bookkeeping for the two relevant sites).
* The unbounded `while` loops of the three searches are embedded with an explicit
  fuel parameter; `none` marks a run that did not reach the loop's exit condition
  within the given fuel, `some r` a run that returned `r`.
-/

namespace WayOut

/-- `Coords` (main.py line 14): an (x, y) pair of integers addressing a grid cell. -/
structure Coords where
  x : Int
  y : Int
deriving DecidableEq, Repr

/-- `Direction` (main.py line 30): a compass direction with its display name,
serialization code and unit displacement vector. -/
structure Direction where
  name : String
  code : String
  vector : Coords
deriving DecidableEq, Repr

/-- The fixed, ordered direction table `Directions` (main.py lines 35-39). -/
def Directions : List Direction :=
  [ ⟨"left" , "1", ⟨-1,  0⟩⟩,
    ⟨"right", "2", ⟨ 1,  0⟩⟩,
    ⟨"up"   , "3", ⟨ 0, -1⟩⟩,
    ⟨"down" , "4", ⟨ 0,  1⟩⟩ ]

/-- `Step` (main.py line 41): a direction plus a cell count, with the optional
`endsOnTrap` flag defaulting to Python `None` (here `Option.none`). -/
structure Step where
  direction : Direction
  cellNumber : Nat
  endsOnTrap : Option Bool := none
deriving DecidableEq, Repr

/-- `Rotate` (main.py line 46): a district id plus a rotation sense
(1 = counter-clockwise, 2 = clockwise). -/
structure Rotate where
  district : Int
  direction : Int
deriving DecidableEq, Repr

/-- `District` (main.py line 50): the inclusive coordinate range of one 5x5 region. -/
structure District where
  xMin : Nat
  xMax : Nat
  yMin : Nat
  yMax : Nat
deriving DecidableEq, Repr

/-- The `districts` dictionary (main.py lines 56-66); lookup of a key outside 1..9
raises `KeyError` in Python, modelled by `Option.none`. -/
def districts : Int → Option District
  | 1 => some ⟨ 1,  5,  1,  5⟩
  | 2 => some ⟨ 6, 10,  1,  5⟩
  | 3 => some ⟨11, 15,  1,  5⟩
  | 4 => some ⟨ 1,  5,  6, 10⟩
  | 5 => some ⟨ 6, 10,  6, 10⟩
  | 6 => some ⟨11, 15,  6, 10⟩
  | 7 => some ⟨ 1,  5, 11, 15⟩
  | 8 => some ⟨ 6, 10, 11, 15⟩
  | 9 => some ⟨11, 15, 11, 15⟩
  | _ => none

/-- `Coords.__add__` (main.py lines 18-19): displace a coordinate by a whole `Step`. -/
def Coords.addStep (c : Coords) (s : Step) : Coords :=
  ⟨c.x + (s.cellNumber : Int) * s.direction.vector.x,
   c.y + (s.cellNumber : Int) * s.direction.vector.y⟩

/-- `Coords.__neg__` (main.py lines 21-22). -/
def Coords.neg (c : Coords) : Coords := ⟨-c.x, -c.y⟩

/-- `Coords.surrounding` (main.py lines 24-25): the four axis neighbours, in
direction-table order. -/
def Coords.surrounding (c : Coords) : List Coords :=
  Directions.map fun d => ⟨c.x + d.vector.x, c.y + d.vector.y⟩

/-- `taxicabDistance` (main.py lines 27-28). -/
def taxicabDistance (startCoords endCoords : Coords) : Nat :=
  (startCoords.x - endCoords.x).natAbs + (startCoords.y - endCoords.y).natAbs

/-- `Action`: the Python code stores `Step` and `Rotate` values in one untyped
action list and discriminates with `type(action) is ...`; embedded as a sum. -/
inductive Action where
  | step (s : Step)
  | rot (r : Rotate)
deriving DecidableEq, Repr

/-- `type(action) is Step` test. -/
def Action.isStep : Action → Bool
  | .step _ => true
  | .rot _ => false

/-- Cost contributed by one action in `Branch.score` (main.py lines 74-81):
a `Step` costs its cell count, a `Rotate` costs the constant 5. -/
def Action.cost : Action → Nat
  | .step s => s.cellNumber
  | .rot _ => 5

/-- `Branch` (main.py lines 68-72): accumulated actions, current position and the
"new" frontier flag (constructor default `True`). -/
structure Branch where
  actions : List Action
  currentPos : Coords
  new : Bool := true
deriving DecidableEq, Repr

/-- `Branch.score` (main.py lines 74-81): the accumulated cost of the actions. -/
def Branch.score (b : Branch) : Nat :=
  b.actions.foldl (fun acc a => acc + a.cost) 0

/-- The parts of the `Maze` object the solver reads: the tile grid plus the start
and escape coordinates parsed from the XML (main.py lines 101-161). -/
structure Maze where
  grid : Nat → Nat → String
  startCoords : Coords
  escapeCoords : Coords

/-- `Maze.WIDTH` (main.py line 106). -/
def Maze.WIDTH : Nat := 17

/-- `Maze.HEIGHT` (main.py line 107). -/
def Maze.HEIGHT : Nat := 17

/-- `Maze.isPath` (main.py lines 209-213): in-bounds and an open/start/escape tile;
any out-of-bounds coordinate is answered `false` by the leading bounds check,
before the grid is consulted. -/
def Maze.isPath (m : Maze) (coords : Coords) : Bool :=
  if coords.x < 0 || (Maze.WIDTH : Int) ≤ coords.x
      || coords.y < 0 || (Maze.HEIGHT : Int) ≤ coords.y then
    false
  else
    let tile := m.grid coords.y.toNat coords.x.toNat
    tile == " " || tile == "s" || tile == "e"

/-- `Maze.isTrap` (main.py lines 216-219): in-bounds and a trap tile, with the same
leading bounds check as `isPath`. -/
def Maze.isTrap (m : Maze) (coords : Coords) : Bool :=
  if coords.x < 0 || (Maze.WIDTH : Int) ≤ coords.x
      || coords.y < 0 || (Maze.HEIGHT : Int) ≤ coords.y then
    false
  else
    m.grid coords.y.toNat coords.x.toNat == "h"

/-- The 5x5 tile square extracted from a district, `district[y][x]`
(main.py lines 170-172). -/
def districtSquare (m : Maze) (D : District) (y x : Nat) : String :=
  m.grid (D.yMin + y) (D.xMin + x)

/-- `rotatedDistrict[y][x]` (main.py lines 174-182): sense 1 reads `district[x][4-y]`
(counter-clockwise), sense 2 reads `district[4-x][y]` (clockwise); any other sense
leaves the `''` placeholder that the Python code initialised the square with. -/
def rotatedSquare (m : Maze) (D : District) (sense : Int) (y x : Nat) : String :=
  if sense = 1 then districtSquare m D x (4 - y)
  else if sense = 2 then districtSquare m D (4 - x) y
  else ""

/-- `Maze.rotate` (main.py lines 168-186): look the district up (a bad id raises
`KeyError`, modelled by `none`), then overwrite the 25 cells
`grid[yMin+y][xMin+x], 0 ≤ y,x < 5` with the rotated square. -/
def Maze.rotate (m : Maze) (r : Rotate) : Option Maze :=
  match districts r.district with
  | none => none
  | some D =>
    some { m with
      grid := fun Y X =>
        if D.yMin ≤ Y ∧ Y < D.yMin + 5 ∧ D.xMin ≤ X ∧ X < D.xMin + 5 then
          rotatedSquare m D r.direction (Y - D.yMin) (X - D.xMin)
        else m.grid Y X }

/-- `Maze.findDistrict` (main.py lines 188-193): clamp the coordinate into the
interior and return the first district whose rectangle contains it (`None` if no
rectangle matches, which the range layout never lets happen). -/
def Maze.findDistrict (m : Maze) (coords : Coords) : Option Int :=
  let tx := min (max 1 coords.x) ((Maze.WIDTH : Int) - 2)
  let ty := min (max 1 coords.y) ((Maze.HEIGHT : Int) - 2)
  (List.range 9).findSome? fun i =>
    let d : Int := (i : Int) + 1
    match districts d with
    | some D =>
      if (D.xMin : Int) ≤ tx ∧ tx ≤ (D.xMax : Int)
          ∧ (D.yMin : Int) ≤ ty ∧ ty ≤ (D.yMax : Int) then
        some d
      else none
    | none => none

/-- A cell the virtual walk of `findSteps` may stand on: `isPath` or, when
`includeTraps` is set, `isTrap` (the negation of the break condition at
main.py line 275). -/
def Maze.walkable (m : Maze) (includeTraps : Bool) (c : Coords) : Bool :=
  m.isPath c || (includeTraps && m.isTrap c)

/-- The inner `while True` walk of `findSteps` (main.py lines 266-288), one
direction at a time, with an explicit fuel bound on the number of iterations.
Note on main.py line 279: the comprehension filter
`d.vector is not -radialDirection.vector` compares object identities, and
`-radialDirection.vector` is a freshly allocated tuple, so the test is true for
every `d`; the candidate list therefore contains all four neighbours of
`midPoint`, including the one walked through, and is embedded that way. -/
def findStepsWalk (m : Maze) (includeTraps : Bool) (coords : Coords)
    (radialDirection : Direction) : Nat → Nat → List Step
  | 0, _ => []
  | fuel + 1, distance =>
    let midPoint := coords.addStep ⟨radialDirection, distance, none⟩
    let isTrap := m.isTrap midPoint
    -- Python: `if not (isPath or (includeTraps and isTrap)): break`, with the
    -- two arms swapped; appending the recorded stop and, unless the stop is a
    -- trap (`if isTrap: break`), the continuation of the walk.
    if m.isPath midPoint || (includeTraps && isTrap) then
      (if (Directions.map fun d => midPoint.addStep ⟨d, 1, none⟩).any
            (fun p => m.isPath p || (includeTraps && m.isTrap p)) then
        [Step.mk radialDirection distance (some isTrap)]
      else [])
      ++ (if isTrap then []
          else findStepsWalk m includeTraps coords radialDirection fuel (distance + 1))
    else []

/-- `Maze.findSteps` (main.py lines 255-290): walk outward in each of the four
directions, recording the candidate stops. A walk leaves the 17x17 board after
at most 17 valid cells (proved below), so the fuel 18 is never the reason a walk
ends. -/
def Maze.findSteps (m : Maze) (coords : Coords) (includeTraps : Bool) :
    List Step :=
  (Directions.map fun radialDirection =>
    findStepsWalk m includeTraps coords radialDirection 18 1).flatten

/-- `Maze.surroundingSteps` (main.py lines 293-309): the valid distance-1 steps. -/
def Maze.surroundingSteps (m : Maze) (coords : Coords) (includeTraps : Bool) :
    List Step :=
  Directions.foldr
    (fun radialDirection acc =>
      let midPoint := coords.addStep ⟨radialDirection, 1, none⟩
      let isTrap := m.isTrap midPoint
      if m.isPath midPoint || (includeTraps && isTrap) then
        Step.mk radialDirection 1 (some isTrap) :: acc
      else acc)
    []

/-- `type(a) is Step and a.endsOnTrap is True`: the scan-stopping test of the
trap-replay loop (main.py lines 334-340 and 461-467). -/
def Action.isTrapEnd : Action → Bool
  | .step s => s.endsOnTrap == some true
  | .rot _ => false

/-- The backward scan that fills `actionsToRepeat` (main.py lines 333-340 and
460-467): walk the reversed action list, skipping `Rotate` actions, collecting
`Step` actions, and stopping at the first `Step` whose `endsOnTrap` is `True`. -/
def actionsToRepeatGo : List Action → List Action
  | [] => []
  | .rot _ :: rest => actionsToRepeatGo rest
  | .step s :: rest =>
    if s.endsOnTrap == some true then []
    else Action.step s :: actionsToRepeatGo rest

/-- `actionsToRepeat` as accumulated by the Python loop: the scan of
`reversed(branch.actions)`, so the collected steps are in reverse
chronological order. -/
def actionsToRepeat (actions : List Action) : List Action :=
  actionsToRepeatGo actions.reverse

/-- `newActions` as built on expanding a branch by one step, shared verbatim by
`mapPaths` (main.py lines 330-344) and `findShortestPathComplex` (main.py lines
457-471): on a trap-ending step, parent actions + trigger + replay (in original
order) + a safe copy of the trigger; otherwise parent actions + the step. -/
def newActionsOnStep (branch : Branch) (step : Step) : List Action :=
  if step.endsOnTrap = some true then
    branch.actions ++ [Action.step step] ++ (actionsToRepeat branch.actions).reverse
      ++ [Action.step ⟨step.direction, step.cellNumber, some false⟩]
  else
    branch.actions ++ [Action.step step]

/-- The score of a bare action list (the loop body of `Branch.score`). -/
def actionsScore (l : List Action) : Nat :=
  l.foldl (fun acc a => acc + a.cost) 0

/-- A concrete maze used by witness statements: the border is wall, the interior
open, with start at (1, 1) and escape at (2, 1). -/
def witnessMaze : Maze where
  grid := fun y x =>
    if y = 0 ∨ y = 16 ∨ x = 0 ∨ x = 16 then "x"
    else if y = 1 ∧ x = 1 then "s"
    else if y = 1 ∧ x = 2 then "e"
    else " "
  startCoords := ⟨1, 1⟩
  escapeCoords := ⟨2, 1⟩

/-- The cell `distance` cells from `c` in direction `rd` (the successive
`midPoint`s of the `findSteps` walk). -/
def rayPoint (c : Coords) (rd : Direction) (i : Nat) : Coords :=
  c.addStep ⟨rd, i, none⟩

/-- A straight-corridor maze: the row y = 1 is open from x = 1 to x = 5, the
start is at (1,1), the escape at (5,1), everything else is wall; no traps. -/
def corridorMaze : Maze where
  grid := fun y x =>
    if y = 1 ∧ x = 1 then "s"
    else if y = 1 ∧ 2 ≤ x ∧ x ≤ 4 then " "
    else if y = 1 ∧ x = 5 then "e"
    else "x"
  startCoords := ⟨1, 1⟩
  escapeCoords := ⟨5, 1⟩

/-- The par guard of `findShortestPathSimple` (main.py lines 385-388) and
`findShortestPathComplex` (lines 449-452): `if par:` is Python truthiness, so
`None` and `0` disable the guard; otherwise the branch is skipped when
`score + taxicabDistance(pos, endCoords) > par`. -/
def pruneGuard (par : Option Nat) (score : Nat) (pos endCoords : Coords) : Bool :=
  match par with
  | none => false
  | some p => if p = 0 then false else decide (p < score + taxicabDistance pos endCoords)

/-- The range guard of `mapPaths` (main.py lines 323-326): skip once
`score >= range` (again `if range:` truthiness). -/
def rangeGuard (range : Option Nat) (score : Nat) : Bool :=
  match range with
  | none => false
  | some p => if p = 0 then false else decide (p ≤ score)

/-- The per-candidate bookkeeping shared verbatim by the three searches
(main.py lines 350-361, 398-409, 477-488): scan the branch list minus the
branch being expanded (Python compares identity, `b is not branch`; the list
holds at most one branch per position, so value inequality computes the same
set), mark the position visited when an occupant is found, retire a strictly
worse occupant (append the new branch, then `remove` its first occurrence), and
append the new branch when the position was never visited. -/
def visitFold (newBranch : Branch) (st : List Branch × Bool) (other : Branch) :
    List Branch × Bool :=
  if other.currentPos = newBranch.currentPos then
    (if newBranch.score < other.score then (st.1 ++ [newBranch]).erase other
     else st.1,
     false)
  else st

def updateVisit (branch : Branch) (newBranch : Branch) (bs : List Branch) :
    List Branch :=
  let r := (bs.filter (fun b => b ≠ branch)).foldl (visitFold newBranch) (bs, true)
  if r.2 then r.1 ++ [newBranch] else r.1

/-- Expansion of one branch in `findShortestPathSimple` (main.py lines 390-409):
traps are treated as walls (`includeTraps=False`), and each step appends itself
to the parent's copied action list. -/
def expandSimple (m : Maze) (branch : Branch) (bs : List Branch) : List Branch :=
  (m.findSteps branch.currentPos false).foldl
    (fun bs step =>
      let newPos := branch.currentPos.addStep step
      let newBranch : Branch := ⟨branch.actions ++ [Action.step step], newPos, true⟩
      updateVisit branch newBranch bs)
    bs

/-- Processing of one snapshot branch by the `while` loop of
`findShortestPathSimple` (main.py lines 381-409): clear its flag (the object
mutation `branch.new = False` updates the one list entry equal to it), apply
the par guard, then expand. -/
def passBodySimple (m : Maze) (par : Option Nat) (endCoords : Coords)
    (bs : List Branch) (b : Branch) : List Branch :=
  let b2 : Branch := ⟨b.actions, b.currentPos, false⟩
  let bs2 := bs.map (fun e => if e = b then b2 else e)
  if pruneGuard par b2.score b2.currentPos endCoords then bs2
  else expandSimple m b2 bs2

/-- One iteration of the `while` loop of `findShortestPathSimple` (main.py lines
379-409): take the snapshot of new branches and process each in order. -/
def passSimple (m : Maze) (par : Option Nat) (endCoords : Coords)
    (bs : List Branch) : List Branch :=
  (bs.filter (fun b => b.new)).foldl (passBodySimple m par endCoords) bs

/-- The `while any new` loop of `findShortestPathSimple`, fuel-indexed. -/
def loopSimple (m : Maze) (par : Option Nat) (endCoords : Coords) :
    Nat → List Branch → Option (List Branch)
  | 0, bs => if bs.any (fun b => b.new) then none else some bs
  | fuel + 1, bs =>
    if bs.any (fun b => b.new) then
      loopSimple m par endCoords fuel (passSimple m par endCoords bs)
    else some bs

/-- `Maze.findShortestPathSimple` (main.py lines 373-426): run the loop from the
deep copy of the start branch re-flagged new, then return the first branch
standing on `endCoords`, or `None`. The outer `none` marks fuel exhaustion. -/
def findShortestPathSimple (m : Maze) (par : Option Nat) (startBranch : Branch)
    (endCoords : Coords) (fuel : Nat) : Option (Option Branch) :=
  (loopSimple m par endCoords fuel [⟨startBranch.actions, startBranch.currentPos, true⟩]).map
    (fun bs => bs.find? (fun b => b.currentPos = endCoords))

/-- Expansion of one branch in `mapPaths` (main.py lines 328-361): distance-1
steps with traps traversable, and the trap-replay construction of the new
action list (`newActionsOnStep`). -/
def expandMap (m : Maze) (branch : Branch) (bs : List Branch) : List Branch :=
  (m.surroundingSteps branch.currentPos true).foldl
    (fun bs step =>
      let newPos := branch.currentPos.addStep step
      let newBranch : Branch := ⟨newActionsOnStep branch step, newPos, true⟩
      updateVisit branch newBranch bs)
    bs

/-- One iteration of the `while` loop of `mapPaths` (main.py lines 317-361). -/
def passMap (m : Maze) (range : Option Nat) (bs : List Branch) : List Branch :=
  (bs.filter (fun b => b.new)).foldl
    (fun bs b =>
      let b2 : Branch := ⟨b.actions, b.currentPos, false⟩
      let bs2 := bs.map (fun e => if e = b then b2 else e)
      if rangeGuard range b2.score then bs2
      else expandMap m b2 bs2)
    bs

/-- The `while any new` loop of `mapPaths`, fuel-indexed. -/
def loopMap (m : Maze) (range : Option Nat) :
    Nat → List Branch → Option (List Branch)
  | 0, bs => if bs.any (fun b => b.new) then none else some bs
  | fuel + 1, bs =>
    if bs.any (fun b => b.new) then loopMap m range fuel (passMap m range bs)
    else some bs

/-- `Maze.mapPaths` (main.py lines 311-371): flood the maze from the start
branch and return the whole branch list. The outer `none` marks fuel
exhaustion. -/
def mapPaths (m : Maze) (range : Option Nat) (startBranch : Branch) (fuel : Nat) :
    Option (List Branch) :=
  loopMap m range fuel [⟨startBranch.actions, startBranch.currentPos, true⟩]

/-- The par tightening on reaching `endCoords` (main.py lines 490-495), with
Python truthiness: a `None` or `0` par is replaced by the new score outright. -/
def tightenPar (par : Option Nat) (newScore : Nat) : Option Nat :=
  match par with
  | none => some newScore
  | some p => if p = 0 then some newScore else some (min p newScore)

/-- Expansion of one branch in `findShortestPathComplex` (main.py lines
454-495): full-length steps with traps traversable, trap-replay action
construction, and par tightening whenever a candidate lands on `endCoords`. -/
def expandComplex (m : Maze) (endCoords : Coords) (branch : Branch)
    (st : List Branch × Option Nat) : List Branch × Option Nat :=
  (m.findSteps branch.currentPos true).foldl
    (fun st step =>
      let newPos := branch.currentPos.addStep step
      let newBranch : Branch := ⟨newActionsOnStep branch step, newPos, true⟩
      let bs2 := updateVisit branch newBranch st.1
      let par2 := if newPos = endCoords then tightenPar st.2 newBranch.score else st.2
      (bs2, par2))
    st

/-- One iteration of the `while` loop of `findShortestPathComplex` (main.py
lines 443-495); the par tightened by earlier branches of the same pass guards
the later ones. -/
def passComplex (m : Maze) (endCoords : Coords) (st : List Branch × Option Nat) :
    List Branch × Option Nat :=
  (st.1.filter (fun b => b.new)).foldl
    (fun st b =>
      let b2 : Branch := ⟨b.actions, b.currentPos, false⟩
      let bs2 := st.1.map (fun e => if e = b then b2 else e)
      if pruneGuard st.2 b2.score b2.currentPos endCoords then (bs2, st.2)
      else expandComplex m endCoords b2 (bs2, st.2))
    st

/-- The `while any new` loop of `findShortestPathComplex`, fuel-indexed. -/
def loopComplex (m : Maze) (endCoords : Coords) :
    Nat → List Branch × Option Nat → Option (List Branch)
  | 0, st => if st.1.any (fun b => b.new) then none else some st.1
  | fuel + 1, st =>
    if st.1.any (fun b => b.new) then
      loopComplex m endCoords fuel (passComplex m endCoords st)
    else some st.1

/-- `Maze.findShortestPathComplex` (main.py lines 428-510): seed the branch list
with the start copy and, when the Tier-1 pre-solve succeeds, its solution
branch (flag untouched) while tightening par; then run the loop and return the
first branch standing on `endCoords`, or `None` (the implicit Python return). -/
def findShortestPathComplex (m : Maze) (par : Option Nat) (startBranch : Branch)
    (endCoords : Coords) (fuel : Nat) : Option (Option Branch) :=
  match findShortestPathSimple m par startBranch endCoords fuel with
  | none => none
  | some simpleBranch =>
    let st : List Branch × Option Nat :=
      match simpleBranch with
      | some sb => ([⟨startBranch.actions, startBranch.currentPos, true⟩, sb],
          tightenPar par sb.score)
      | none => ([⟨startBranch.actions, startBranch.currentPos, true⟩], par)
    (loopComplex m endCoords fuel st).map
      (fun bs => bs.find? (fun b => b.currentPos = endCoords))

/-- The trap-cleared deep copy built inside `determineLevel` (main.py lines
227-232): every trap tile of the 17x17 range becomes open path. -/
def Maze.withoutTraps (m : Maze) : Maze :=
  { m with grid := fun y x =>
      if y < Maze.HEIGHT ∧ x < Maze.WIDTH ∧ m.grid y x = "h" then " "
      else m.grid y x }

/-- `trapsPresent` as scanned by `determineLevel` (main.py lines 226-231). -/
def Maze.trapsPresent (m : Maze) : Bool :=
  (List.range Maze.HEIGHT).any fun y =>
    (List.range Maze.WIDTH).any fun x => m.grid y x == "h"

/-- `Maze.determineLevel` (main.py lines 225-243): 3 when the trap-cleared maze
has no Tier-1 solution, else 2 with traps present, else 1. Fuel-indexed through
the Tier-1 search; `none` marks fuel exhaustion. -/
def Maze.determineLevel (m : Maze) (fuel : Nat) : Option Nat :=
  match findShortestPathSimple m.withoutTraps none ⟨[], m.startCoords, true⟩
      m.escapeCoords fuel with
  | none => none
  | some r =>
    if r = none then some 3
    else if m.trapsPresent then some 2 else some 1

/-- Models the call `self.findShortestPath(par, startBranch, endCoords, level=2)`
on main.py line 514: the dispatcher's level-2 arm (line 584) is an unconditional
`return None` placed before its dead call to `findShortestPathComplex`, so this
seed is always `None`. (The third positional argument of that call binds to
`startCoords` and is ignored since `startBranch` is given.) -/
def findShortestPathLevel2 (_m : Maze) (_par : Option Nat) (_startBranch : Branch)
    (_endCoords : Coords) : Option Branch :=
  none

/-- The lower-bound guards of `findShortestPathVeryComplex` (main.py lines
522-525 and 541-543): skip when `score + extra + taxicab > par` under
truthiness of par. -/
def veryGuard (par : Option Nat) (score extra : Nat) (pos endCoords : Coords) : Bool :=
  match par with
  | none => false
  | some p =>
    if p = 0 then false else decide (p < score + extra + taxicabDistance pos endCoords)

/-- The district candidates `[n for n in range(1,10) if findDistrict(mid) != n]`
(main.py lines 527 and 545). -/
def districtCandidates (m : Maze) (mid : Coords) : List Int :=
  (((List.range 9).map fun n => (n : Int) + 1)).filter
    fun n => m.findDistrict mid ≠ some n

/-- `Maze.findShortestPathVeryComplex` (main.py lines 512-566): seed par from
the level-2 dispatch (always `None`, see `findShortestPathLevel2`), then for
every branch of `mapPaths`, every admissible first and second rotation, solve
the doubly rotated maze with `findShortestPathComplex`, keeping the best
solution and tightening par. Fuel exhaustion of any inner search propagates as
the outer `none`. -/
def findShortestPathVeryComplex (m : Maze) (par0 : Option Nat) (startBranch : Branch)
    (endCoords : Coords) (fuel : Nat) : Option (Option Branch) := do
  let mut solution : Option Branch := findShortestPathLevel2 m par0 startBranch endCoords
  let mut par : Option Nat := par0
  if let some sol := solution then
    par := some sol.score
  let branches ← mapPaths m par startBranch fuel
  for branch in branches do
    let midPoint := branch.currentPos
    if veryGuard par branch.score 10 midPoint endCoords then
      continue
    for district in districtCandidates m midPoint do
      for direction in [(1 : Int), 2] do
        let rotation : Rotate := ⟨district, direction⟩
        let rotatedMaze ← m.rotate rotation
        let preBranch : Branch := ⟨branch.actions ++ [Action.rot rotation], midPoint, true⟩
        let secondBranches ← mapPaths m par preBranch fuel
        for secondBranch in secondBranches do
          let secondMidPoint := secondBranch.currentPos
          if veryGuard par secondBranch.score 5 secondMidPoint endCoords then
            continue
          for district2 in districtCandidates m secondMidPoint do
            for direction2 in [(1 : Int), 2] do
              let secondRotation : Rotate := ⟨district2, direction2⟩
              let secondRotatedMaze ← rotatedMaze.rotate secondRotation
              let preBranch2 : Branch :=
                ⟨secondBranch.actions ++ [Action.rot secondRotation], secondMidPoint, true⟩
              let newBranch ← findShortestPathComplex secondRotatedMaze par preBranch2
                endCoords fuel
              if let some nb := newBranch then
                match par with
                | some p =>
                  if p ≠ 0 then
                    if nb.score < p then
                      solution := some nb
                      par := some nb.score
                  else
                    solution := some nb
                    par := some nb.score
                | none =>
                  solution := some nb
                  par := some nb.score
  return solution

/-- The dispatch arms of `findShortestPath` (main.py lines 580-587): level 3
runs Tier 3 with par 31; level 2 is an unconditional `return None` placed
before a dead `findShortestPathComplex(92, ...)` call; level 1 runs Tier 1 with
par 67; any other level falls off the function, returning `None`. -/
def Maze.findShortestPathAtLevel (m : Maze) (startBranch : Branch)
    (endCoords : Coords) (level : Nat) (fuel : Nat) : Option (Option Branch) :=
  if level = 3 then findShortestPathVeryComplex m (some 31) startBranch endCoords fuel
  else if level = 2 then some none
  else if level = 1 then findShortestPathSimple m (some 67) startBranch endCoords fuel
  else some none

/-- `Maze.findShortestPath` (main.py lines 568-587): fill in the defaulted start
branch and escape coordinates, determine the level when absent, and dispatch.
The `par` parameter of the Python signature is never read by the body. -/
def Maze.findShortestPath (m : Maze) (_par : Option Nat) (startBranch : Option Branch)
    (startCoords : Option Coords) (endCoords : Option Coords) (level : Option Nat)
    (fuel : Nat) : Option (Option Branch) :=
  let startBranch2 : Branch :=
    match startBranch with
    | some sb => sb
    | none =>
      match startCoords with
      | some c => ⟨[], c, true⟩
      | none => ⟨[], m.startCoords, true⟩
  let endCoords2 : Coords :=
    match endCoords with
    | some c => c
    | none => m.escapeCoords
  match level with
  | some l => m.findShortestPathAtLevel startBranch2 endCoords2 l fuel
  | none =>
    match m.determineLevel fuel with
    | none => none
    | some l => m.findShortestPathAtLevel startBranch2 endCoords2 l fuel

/-- A minimal concrete maze for search witnesses: only (1,1) (start) and (2,1)
(escape) are not wall. -/
def tinyMaze : Maze where
  grid := fun y x =>
    if y = 1 ∧ x = 1 then "s"
    else if y = 1 ∧ x = 2 then "e"
    else "x"
  startCoords := ⟨1, 1⟩
  escapeCoords := ⟨2, 1⟩

/-- Modelled from the spec: the cross-check oracle for Tier-1 — "a plain
breadth-first search over single-cell steps". `unitReach m n c` holds when `c`
is reachable from the maze's start in at most `n` single-cell moves through
`isPath` cells. -/
def unitReach (m : Maze) : Nat → Coords → Bool
  | 0, c => c = m.startCoords
  | n + 1, c =>
    unitReach m n c ||
      (m.isPath c && Directions.any fun d => unitReach m n (c.addStep ⟨d, 1, none⟩))

/-- Position-distinctness of a branch list: the searches keep at most one
branch per position. -/
def PosUnique (bs : List Branch) : Prop :=
  bs.Pairwise fun a b => a.currentPos ≠ b.currentPos

/-- `bs2` keeps, for every position occupied in `bs`, a branch at that position
with no larger score. -/
def Covers (bs bs2 : List Branch) : Prop :=
  ∀ b ∈ bs, ∃ b2 ∈ bs2, b2.currentPos = b.currentPos ∧ b2.score ≤ b.score

/-- The facts carried for every branch of a Tier-1 run: its actions are all
steps, and its position is reachable from the start within its score many unit
moves (so its score is at least the BFS distance of its position). -/
def BranchOk (m : Maze) (b : Branch) : Prop :=
  (∀ a ∈ b.actions, a.isStep = true) ∧ unitReach m b.score b.currentPos = true

/-- The relaxation invariant once a branch's flag is cleared: every unit move
onto a path cell from its position is covered at its score plus one. -/
def Relaxed (m : Maze) (bs : List Branch) : Prop :=
  ∀ b ∈ bs, b.new = false → ∀ d ∈ Directions,
    m.isPath (b.currentPos.addStep ⟨d, 1, none⟩) = true →
    ∃ b2 ∈ bs, b2.currentPos = b.currentPos.addStep ⟨d, 1, none⟩
      ∧ b2.score ≤ b.score + 1

/-- The full loop invariant of a par-less Tier-1 run. -/
def SimpleInv (m : Maze) (bs : List Branch) : Prop :=
  PosUnique bs ∧ (∀ b ∈ bs, BranchOk m b) ∧ Relaxed m bs

/-- C10 helper: the out-of-bounds predicate shared by `isPath` and `isTrap`. -/
def outOfBounds (c : Coords) : Prop :=
  c.x < 0 ∨ (Maze.WIDTH : Int) ≤ c.x ∨ c.y < 0 ∨ (Maze.HEIGHT : Int) ≤ c.y

instance (c : Coords) : Decidable (outOfBounds c) := by
  unfold outOfBounds; infer_instance

theorem actionsScore_foldl (l : List Action) (acc : Nat) :
    l.foldl (fun acc a => acc + a.cost) acc = acc + actionsScore l := by
  induction l generalizing acc with
  | nil => simp [actionsScore]
  | cons a t ih =>
    simp only [actionsScore, List.foldl_cons]
    rw [ih (acc + a.cost), ih (0 + a.cost)]
    omega

theorem actionsScore_append (l₁ l₂ : List Action) :
    actionsScore (l₁ ++ l₂) = actionsScore l₁ + actionsScore l₂ := by
  simp only [actionsScore, List.foldl_append]
  rw [actionsScore_foldl]
  rfl

theorem Branch.score_eq (b : Branch) : b.score = actionsScore b.actions := rfl

theorem actionsToRepeatGo_append (l rest : List Action)
    (h : ∀ a ∈ l, a.isTrapEnd = false) :
    actionsToRepeatGo (l ++ rest) = l.filter Action.isStep ++ actionsToRepeatGo rest := by
  induction l with
  | nil => simp
  | cons a t ih =>
    have ha := h a (by simp)
    have ht : ∀ a ∈ t, a.isTrapEnd = false := fun a hmem => h a (by simp [hmem])
    cases a with
    | rot r => simp [actionsToRepeatGo, Action.isStep, ih ht]
    | step s =>
      simp only [Action.isTrapEnd] at ha
      simp [actionsToRepeatGo, ha, Action.isStep, ih ht]

theorem filter_reverse_reverse (l : List Action) (p : Action → Bool) :
    (l.reverse.filter p).reverse = l.filter p := by
  induction l with
  | nil => rfl
  | cons a t ih =>
    by_cases hp : p a = true <;>
      simp [List.filter_append, hp, ih]

/-- The replay list the code computes is exactly the steps (rotations dropped)
after the most recent trap-ending action, in original order. -/
theorem actionsToRepeat_spec (pre suffix : List Action)
    (hsuffix : ∀ a ∈ suffix, a.isTrapEnd = false)
    (hpre : pre = [] ∨ ∃ t, t.isTrapEnd = true ∧ ∃ pre2, pre = pre2 ++ [t]) :
    (actionsToRepeat (pre ++ suffix)).reverse = suffix.filter Action.isStep := by
  have hsuffixRev : ∀ a ∈ suffix.reverse, a.isTrapEnd = false := by
    intro a ha; exact hsuffix a (List.mem_reverse.mp ha)
  have key : actionsToRepeat (pre ++ suffix)
      = suffix.reverse.filter Action.isStep := by
    unfold actionsToRepeat
    rw [List.reverse_append]
    rcases hpre with hnil | ⟨t, htrap, pre2, hsplit⟩
    · subst hnil
      have h2 := actionsToRepeatGo_append suffix.reverse [] hsuffixRev
      rw [List.append_nil] at h2
      simpa [actionsToRepeatGo] using h2
    · subst hsplit
      rw [List.reverse_append, List.reverse_singleton, List.singleton_append,
        actionsToRepeatGo_append suffix.reverse _ hsuffixRev]
      cases t with
      | rot r => simp [Action.isTrapEnd] at htrap
      | step s =>
        simp only [Action.isTrapEnd] at htrap
        simp [actionsToRepeatGo, htrap]
  rw [key, filter_reverse_reverse]

/-- **C1.** When a branch's expansion in the trap-aware searches
(`findShortestPathComplex` and `mapPaths`, which both build their new action
list with `newActionsOnStep`) selects a `Step` that ends on a trap, the new
action list is: the parent's actions, the triggering step, then — in original
order — every step (rotations skipped) taken after the most recent previous
trap-ending step (all of them when there is none), then one safe copy of the
trigger with `endsOnTrap` set to `false`; consequently the new branch's score
is the parent's score plus the replayed distances plus twice the trigger's
distance. -/
theorem trapStep_expansion (branch : Branch) (step : Step) (pre suffix : List Action)
    (htrap : step.endsOnTrap = some true)
    (hsplit : branch.actions = pre ++ suffix)
    (hsuffix : ∀ a ∈ suffix, a.isTrapEnd = false)
    (hpre : pre = [] ∨ ∃ t, t.isTrapEnd = true ∧ ∃ pre2, pre = pre2 ++ [t]) :
    newActionsOnStep branch step
      = branch.actions ++ [Action.step step] ++ suffix.filter Action.isStep
        ++ [Action.step ⟨step.direction, step.cellNumber, some false⟩]
    ∧ (Branch.mk (newActionsOnStep branch step) (branch.currentPos.addStep step) true).score
      = branch.score + actionsScore (suffix.filter Action.isStep)
        + 2 * step.cellNumber := by
  have hrepeat : (actionsToRepeat branch.actions).reverse
      = suffix.filter Action.isStep := by
    rw [hsplit]; exact actionsToRepeat_spec pre suffix hsuffix hpre
  have hact : newActionsOnStep branch step
      = branch.actions ++ [Action.step step] ++ suffix.filter Action.isStep
        ++ [Action.step ⟨step.direction, step.cellNumber, some false⟩] := by
    unfold newActionsOnStep
    rw [if_pos htrap, hrepeat]
  refine ⟨hact, ?_⟩
  rw [Branch.score_eq, Branch.score_eq, hact]
  simp only [actionsScore_append]
  simp [actionsScore, Action.cost]
  omega

/-- Witness for C1: a branch whose history holds one earlier trap-ending step, a
rotation and one later plain step, expanded by a trap-ending trigger. -/
theorem trapStep_expansion_witness :
    (let s1 : Step := ⟨⟨"right", "2", ⟨1, 0⟩⟩, 3, some true⟩
     let r0 : Rotate := ⟨4, 1⟩
     let s2 : Step := ⟨⟨"down", "4", ⟨0, 1⟩⟩, 2, some false⟩
     let trigger : Step := ⟨⟨"right", "2", ⟨1, 0⟩⟩, 4, some true⟩
     let b : Branch := ⟨[Action.step s1, Action.rot r0, Action.step s2], ⟨5, 5⟩, false⟩
     newActionsOnStep b trigger
       = b.actions ++ [Action.step trigger]
         ++ [Action.rot r0, Action.step s2].filter Action.isStep
         ++ [Action.step ⟨trigger.direction, trigger.cellNumber, some false⟩]
     ∧ (Branch.mk (newActionsOnStep b trigger) (b.currentPos.addStep trigger) true).score
       = b.score + actionsScore ([Action.rot r0, Action.step s2].filter Action.isStep)
         + 2 * trigger.cellNumber) :=
  trapStep_expansion
    ⟨[Action.step ⟨⟨"right", "2", ⟨1, 0⟩⟩, 3, some true⟩, Action.rot ⟨4, 1⟩,
      Action.step ⟨⟨"down", "4", ⟨0, 1⟩⟩, 2, some false⟩], ⟨5, 5⟩, false⟩
    ⟨⟨"right", "2", ⟨1, 0⟩⟩, 4, some true⟩
    [Action.step ⟨⟨"right", "2", ⟨1, 0⟩⟩, 3, some true⟩]
    [Action.rot ⟨4, 1⟩, Action.step ⟨⟨"down", "4", ⟨0, 1⟩⟩, 2, some false⟩]
    rfl rfl (by decide)
    (Or.inr ⟨Action.step ⟨⟨"right", "2", ⟨1, 0⟩⟩, 3, some true⟩, by decide, [], rfl⟩)

theorem rayPoint_zero (c : Coords) (rd : Direction) : rayPoint c rd 0 = c := by
  simp [rayPoint, Coords.addStep]

/-- A walkable cell is inside the 17x17 board. -/
theorem inBounds_of_walkable (m : Maze) (incl : Bool) (c : Coords)
    (h : m.walkable incl c = true) :
    0 ≤ c.x ∧ c.x < 17 ∧ 0 ≤ c.y ∧ c.y < 17 := by
  simp only [Maze.walkable, Maze.isPath, Maze.isTrap, Maze.WIDTH, Maze.HEIGHT] at h
  by_cases hb : c.x < 0 || (17 : Int) ≤ c.x || c.y < 0 || (17 : Int) ≤ c.y
  · rw [if_pos] at h
    · rw [if_pos] at h
      · simp at h
      · simpa using hb
    · simpa using hb
  · simp only [Bool.or_eq_true, decide_eq_true_eq, not_or, not_lt, not_le] at hb
    push_cast at hb ⊢
    omega

/-- Each direction of the table has a reverse in the table, and stepping one cell
backward from the ray's cell `i` (with `1 ≤ i`) lands on the ray's cell `i - 1`. -/
theorem back_direction (rd : Direction) (hrd : rd ∈ Directions) :
    ∃ bd ∈ Directions, ∀ (c : Coords) (i : Nat), 1 ≤ i →
      (rayPoint c rd i).addStep ⟨bd, 1, none⟩ = rayPoint c rd (i - 1) := by
  simp only [Directions, List.mem_cons, List.not_mem_nil, or_false] at hrd
  rcases hrd with h | h | h | h <;> subst h
  · exact ⟨⟨"right", "2", ⟨1, 0⟩⟩, by simp [Directions], by
      intro c i hi
      simp only [rayPoint, Coords.addStep, Coords.mk.injEq]
      constructor <;> simp <;> omega⟩
  · exact ⟨⟨"left", "1", ⟨-1, 0⟩⟩, by simp [Directions], by
      intro c i hi
      simp only [rayPoint, Coords.addStep, Coords.mk.injEq]
      constructor <;> simp <;> omega⟩
  · exact ⟨⟨"down", "4", ⟨0, 1⟩⟩, by simp [Directions], by
      intro c i hi
      simp only [rayPoint, Coords.addStep, Coords.mk.injEq]
      constructor <;> simp <;> omega⟩
  · exact ⟨⟨"up", "3", ⟨0, -1⟩⟩, by simp [Directions], by
      intro c i hi
      simp only [rayPoint, Coords.addStep, Coords.mk.injEq]
      constructor <;> simp <;> omega⟩

/-- A ray whose cells `1..n` are all walkable has `n ≤ 17`: the moving coordinate
takes `n` distinct values inside the board. -/
theorem walk_length_le (m : Maze) (incl : Bool) (c : Coords) (rd : Direction)
    (hrd : rd ∈ Directions) (n : Nat)
    (hchain : ∀ i, 1 ≤ i → i ≤ n → m.walkable incl (rayPoint c rd i) = true) :
    n ≤ 17 := by
  by_cases hn : n ≤ 1
  · omega
  · have h1 := inBounds_of_walkable m incl _ (hchain 1 le_rfl (by omega))
    have hn2 := inBounds_of_walkable m incl _ (hchain n (by omega) le_rfl)
    simp only [Directions, List.mem_cons, List.not_mem_nil, or_false] at hrd
    rcases hrd with h | h | h | h <;> subst h <;>
      simp only [rayPoint, Coords.addStep] at h1 hn2 <;>
      push_cast at h1 hn2 <;> omega

/-- One unfolding of the walk, with the break condition phrased through
`walkable` and the trap-break folded into an appended tail. -/
theorem findStepsWalk_succ (m : Maze) (incl : Bool) (coords : Coords)
    (rd : Direction) (fuel d : Nat) :
    findStepsWalk m incl coords rd (fuel + 1) d =
      if m.walkable incl (rayPoint coords rd d) = true then
        (if (Directions.map fun dir => (rayPoint coords rd d).addStep ⟨dir, 1, none⟩).any
              (fun p => m.isPath p || (incl && m.isTrap p)) then
          [Step.mk rd d (some (m.isTrap (rayPoint coords rd d)))]
        else [])
        ++ (if m.isTrap (rayPoint coords rd d) then []
            else findStepsWalk m incl coords rd fuel (d + 1))
      else [] := rfl

/-- The junction test of the walk is always true once the previous ray cell is
walkable: the candidate list contains the cell walked through (the direction
filter on main.py line 279 is inoperative), and that cell passes the test. -/
theorem walk_any_true (m : Maze) (incl : Bool) (coords : Coords) (rd : Direction)
    (hrd : rd ∈ Directions) (d : Nat) (hd : 1 ≤ d)
    (hprev : m.walkable incl (rayPoint coords rd (d - 1)) = true) :
    (Directions.map fun dir => (rayPoint coords rd d).addStep ⟨dir, 1, none⟩).any
      (fun p => m.isPath p || (incl && m.isTrap p)) = true := by
  obtain ⟨bd, hbd, hback⟩ := back_direction rd hrd
  rw [List.any_eq_true]
  refine ⟨(rayPoint coords rd d).addStep ⟨bd, 1, none⟩, List.mem_map_of_mem _ hbd, ?_⟩
  rw [hback coords d hd]
  simpa [Maze.walkable] using hprev

/-- Full characterization of one direction's walk: provided the cell just before
the walk's starting distance is walkable, a step is emitted exactly for the
distances `n` (within fuel) whose whole ray prefix is walkable with no strictly
earlier trap, and its `endsOnTrap` flag is the trap test of the final cell. -/
theorem findStepsWalk_mem_iff (m : Maze) (incl : Bool) (coords : Coords)
    (rd : Direction) (hrd : rd ∈ Directions) :
    ∀ (fuel d₀ : Nat), 1 ≤ d₀ →
      m.walkable incl (rayPoint coords rd (d₀ - 1)) = true →
      ∀ step : Step,
        (step ∈ findStepsWalk m incl coords rd fuel d₀ ↔
          ∃ n, step = ⟨rd, n, some (m.isTrap (rayPoint coords rd n))⟩
            ∧ d₀ ≤ n ∧ n < d₀ + fuel
            ∧ (∀ i, d₀ ≤ i → i ≤ n → m.walkable incl (rayPoint coords rd i) = true)
            ∧ (∀ i, d₀ ≤ i → i < n → m.isTrap (rayPoint coords rd i) = false)) := by
  intro fuel
  induction fuel with
  | zero =>
    intro d₀ hd₀ hprev step
    simp only [findStepsWalk, List.not_mem_nil, false_iff, not_exists, not_and]
    intro n _ h1 h2
    omega
  | succ fuel ih =>
    intro d₀ hd₀ hprev step
    rw [findStepsWalk_succ]
    by_cases hw : m.walkable incl (rayPoint coords rd d₀) = true
    · rw [if_pos hw, if_pos (walk_any_true m incl coords rd hrd d₀ hd₀ hprev)]
      by_cases ht : m.isTrap (rayPoint coords rd d₀) = true
      · rw [if_pos ht]
        simp only [List.append_nil, List.mem_singleton]
        constructor
        · rintro rfl
          exact ⟨d₀, rfl, le_rfl, by omega,
            fun i h1 h2 => by rw [show i = d₀ from by omega]; exact hw,
            fun i h1 h2 => by omega⟩
        · rintro ⟨n, rfl, hn1, hn2, hchain, hfree⟩
          have : n = d₀ := by
            by_contra hne
            have := hfree d₀ le_rfl (by omega)
            rw [this] at ht
            exact Bool.false_ne_true ht
          subst this; rfl
      · rw [if_neg ht]
        have hnext : m.walkable incl (rayPoint coords rd (d₀ + 1 - 1)) = true := by
          simpa using hw
        rw [List.mem_append, List.mem_singleton,
          ih (d₀ + 1) (by omega) hnext step]
        constructor
        · rintro (rfl | ⟨n, rfl, hn1, hn2, hchain, hfree⟩)
          · exact ⟨d₀, rfl, le_rfl, by omega,
              fun i h1 h2 => by rw [show i = d₀ from by omega]; exact hw,
              fun i h1 h2 => by omega⟩
          · refine ⟨n, rfl, by omega, by omega, ?_, ?_⟩
            · intro i h1 h2
              rcases Nat.eq_or_lt_of_le h1 with h | h
              · subst h; exact hw
              · exact hchain i (by omega) h2
            · intro i h1 h2
              rcases Nat.eq_or_lt_of_le h1 with h | h
              · subst h
                exact Bool.eq_false_iff.mpr ht
              · exact hfree i (by omega) h2
        · rintro ⟨n, rfl, hn1, hn2, hchain, hfree⟩
          rcases Nat.eq_or_lt_of_le hn1 with h | h
          · subst h; exact Or.inl rfl
          · exact Or.inr ⟨n, rfl, by omega, by omega,
              fun i h1 h2 => hchain i (by omega) h2,
              fun i h1 h2 => hfree i (by omega) h2⟩
    · rw [if_neg hw]
      simp only [List.not_mem_nil, false_iff, not_exists, not_and]
      rintro n rfl h1 h2 h3
      intro h4
      exact hw (h3 d₀ le_rfl h1)

/-- **C2 (amended).** For a traversable starting cell, `findSteps` records a step
of distance `n` in a direction exactly when every ray cell up to `n` is
traversable and no cell strictly before `n` is a trap; every such candidate stop
is recorded. The junction filter of the spec is inoperative: the neighbour list
includes the backward cell (main.py line 279 compares object identity against a
fresh tuple), which is always traversable, so mid-corridor cells are recorded
too, and the escape tile gets no special stopping treatment. -/
theorem findSteps_mem_iff (m : Maze) (incl : Bool) (coords : Coords)
    (hstart : m.walkable incl coords = true) (step : Step) :
    step ∈ m.findSteps coords incl ↔
      step.direction ∈ Directions ∧ 1 ≤ step.cellNumber
      ∧ step.endsOnTrap = some (m.isTrap (rayPoint coords step.direction step.cellNumber))
      ∧ (∀ i, 1 ≤ i → i ≤ step.cellNumber →
          m.walkable incl (rayPoint coords step.direction i) = true)
      ∧ (∀ i, 1 ≤ i → i < step.cellNumber →
          m.isTrap (rayPoint coords step.direction i) = false) := by
  have hstart0 : ∀ rd, m.walkable incl (rayPoint coords rd (1 - 1)) = true := by
    intro rd; rw [show (1 : Nat) - 1 = 0 from rfl, rayPoint_zero]; exact hstart
  constructor
  · intro hmem
    simp only [Maze.findSteps, List.mem_flatten, List.mem_map] at hmem
    obtain ⟨l, ⟨rd, hrdmem, rfl⟩, hstep⟩ := hmem
    rw [findStepsWalk_mem_iff m incl coords rd hrdmem 18 1 le_rfl (hstart0 rd) step]
      at hstep
    obtain ⟨n, rfl, hn1, _, hchain, hfree⟩ := hstep
    exact ⟨hrdmem, hn1, rfl, hchain, hfree⟩
  · rintro ⟨hdir, hn1, heot, hchain, hfree⟩
    simp only [Maze.findSteps, List.mem_flatten, List.mem_map]
    refine ⟨findStepsWalk m incl coords step.direction 18 1,
      ⟨step.direction, hdir, rfl⟩, ?_⟩
    rw [findStepsWalk_mem_iff m incl coords step.direction hdir 18 1 le_rfl
      (hstart0 step.direction) step]
    have hbound : step.cellNumber ≤ 17 :=
      walk_length_le m incl coords step.direction hdir step.cellNumber hchain
    refine ⟨step.cellNumber, ?_, hn1, by omega, hchain, hfree⟩
    obtain ⟨d, n, e⟩ := step
    simp at heot ⊢
    exact heot

/-- Witness for the amended C2: in `witnessMaze` from the start cell (1,1), the
distance-1 step right onto the escape cell is produced, and its characterization
hypotheses hold. -/
theorem findSteps_mem_iff_witness :
    witnessMaze.walkable false ⟨1, 1⟩ = true ∧
      ((Step.mk ⟨"right", "2", ⟨1, 0⟩⟩ 1 (some false)) ∈
          witnessMaze.findSteps ⟨1, 1⟩ false ↔
        ⟨"right", "2", ⟨1, 0⟩⟩ ∈ Directions ∧ 1 ≤ 1
        ∧ (some false : Option Bool)
            = some (witnessMaze.isTrap (rayPoint ⟨1, 1⟩ ⟨"right", "2", ⟨1, 0⟩⟩ 1))
        ∧ (∀ i, 1 ≤ i → i ≤ 1 →
            witnessMaze.walkable false (rayPoint ⟨1, 1⟩ ⟨"right", "2", ⟨1, 0⟩⟩ i) = true)
        ∧ (∀ i, 1 ≤ i → i < 1 →
            witnessMaze.isTrap (rayPoint ⟨1, 1⟩ ⟨"right", "2", ⟨1, 0⟩⟩ i) = false)) :=
  ⟨by decide, findSteps_mem_iff witnessMaze false ⟨1, 1⟩ (by decide)
    (Step.mk ⟨"right", "2", ⟨1, 0⟩⟩ 1 (some false))⟩

/-- **C2 (counterexample).** In `corridorMaze`, walking right from the start,
the candidate stopping cell (3,1) is mid-corridor: it is not the escape tile,
both its perpendicular neighbours are walls, it is not a trap and `includeTraps`
is false — yet `findSteps` records the distance-2 step ending there, so the
"only if (a)/(b)/(c)" rule of the claim does not hold. -/
theorem findSteps_records_mid_corridor :
    (Step.mk ⟨"right", "2", ⟨1, 0⟩⟩ 2 (some false)) ∈
        corridorMaze.findSteps ⟨1, 1⟩ false
      ∧ corridorMaze.grid 1 3 ≠ "e"
      ∧ corridorMaze.isPath ⟨3, 0⟩ = false
      ∧ corridorMaze.isPath ⟨3, 2⟩ = false
      ∧ corridorMaze.isTrap ⟨3, 1⟩ = false := by
  refine ⟨?_, by decide, by decide, by decide, by decide⟩
  decide

/-- Every district id 1..9 resolves to a 5x5 rectangle (`xMax = xMin + 4`,
`yMax = yMin + 4`). -/
theorem districts_dims (d : Int) (hd : 1 ≤ d ∧ d ≤ 9) :
    ∃ D, districts d = some D ∧ D.xMax = D.xMin + 4 ∧ D.yMax = D.yMin + 4 := by
  obtain ⟨h1, h2⟩ := hd
  interval_cases d <;> exact ⟨_, rfl, rfl, rfl⟩

/-- Pointwise description of the grid after `rotate`: the 25 written cells take
the rotated square, everything else keeps its tile. -/
theorem rotate_grid_point (m : Maze) (r : Rotate) (D : District)
    (hD : districts r.district = some D) (m2 : Maze)
    (hrot : m.rotate r = some m2) (Y X : Nat) :
    m2.grid Y X =
      if D.yMin ≤ Y ∧ Y < D.yMin + 5 ∧ D.xMin ≤ X ∧ X < D.xMin + 5 then
        rotatedSquare m D r.direction (Y - D.yMin) (X - D.xMin)
      else m.grid Y X := by
  unfold Maze.rotate at hrot
  rw [hD] at hrot
  cases hrot
  rfl

/-- `rotate` succeeds for every valid district id. -/
theorem rotate_isSome (m : Maze) (r : Rotate) (D : District)
    (hD : districts r.district = some D) :
    ∃ m2, m.rotate r = some m2 := by
  unfold Maze.rotate
  rw [hD]
  exact ⟨_, rfl⟩

/-- A clockwise rotation in relative district coordinates: the cell at row `a`,
column `b` receives the old cell at row `4-b`, column `a`. -/
theorem rotate_cw_rel (m : Maze) (d : Int) (D : District)
    (hD : districts d = some D) (m2 : Maze)
    (hrot : m.rotate ⟨d, 2⟩ = some m2) (a b : Nat) (ha : a < 5) (hb : b < 5) :
    m2.grid (D.yMin + a) (D.xMin + b) = m.grid (D.yMin + (4 - b)) (D.xMin + a) := by
  rw [rotate_grid_point m ⟨d, 2⟩ D hD m2 hrot, if_pos (by omega)]
  simp only [Nat.add_sub_cancel_left, rotatedSquare, districtSquare]
  norm_num

/-- A counter-clockwise rotation in relative district coordinates: the cell at
row `a`, column `b` receives the old cell at row `b`, column `4-a`. -/
theorem rotate_ccw_rel (m : Maze) (d : Int) (D : District)
    (hD : districts d = some D) (m2 : Maze)
    (hrot : m.rotate ⟨d, 1⟩ = some m2) (a b : Nat) (ha : a < 5) (hb : b < 5) :
    m2.grid (D.yMin + a) (D.xMin + b) = m.grid (D.yMin + b) (D.xMin + (4 - a)) := by
  rw [rotate_grid_point m ⟨d, 1⟩ D hD m2 hrot, if_pos (by omega)]
  simp only [Nat.add_sub_cancel_left, rotatedSquare, districtSquare]
  norm_num

/-- Cells outside a district's written 5x5 block are unchanged by `rotate`. -/
theorem rotate_outside_rel (m : Maze) (r : Rotate) (D : District)
    (hD : districts r.district = some D) (m2 : Maze)
    (hrot : m.rotate r = some m2) (Y X : Nat)
    (h : ¬(D.yMin ≤ Y ∧ Y < D.yMin + 5 ∧ D.xMin ≤ X ∧ X < D.xMin + 5)) :
    m2.grid Y X = m.grid Y X := by
  rw [rotate_grid_point m r D hD m2 hrot, if_neg h]

/-- **C8.** For every grid, district id 1..9 and each sense, `rotate` makes the
tile at relative position (x, y) of the district's 5x5 rectangle equal to
`old[size-1-x][y]` for a clockwise rotation (sense 2) and `old[x][size-1-y]` for
a counter-clockwise rotation (sense 1), rows indexed first as in the source,
and leaves every tile outside the district's rectangle unchanged. -/
theorem rotate_spec (m : Maze) (d : Int) (hd : 1 ≤ d ∧ d ≤ 9) :
    ∃ D, districts d = some D ∧
      (∃ mcw, m.rotate ⟨d, 2⟩ = some mcw ∧
        (∀ x y, x < 5 → y < 5 →
          mcw.grid (D.yMin + y) (D.xMin + x) = m.grid (D.yMin + (4 - x)) (D.xMin + y))
        ∧ (∀ Y X, ¬(D.yMin ≤ Y ∧ Y ≤ D.yMax ∧ D.xMin ≤ X ∧ X ≤ D.xMax) →
            mcw.grid Y X = m.grid Y X))
      ∧ (∃ mccw, m.rotate ⟨d, 1⟩ = some mccw ∧
        (∀ x y, x < 5 → y < 5 →
          mccw.grid (D.yMin + y) (D.xMin + x) = m.grid (D.yMin + x) (D.xMin + (4 - y)))
        ∧ (∀ Y X, ¬(D.yMin ≤ Y ∧ Y ≤ D.yMax ∧ D.xMin ≤ X ∧ X ≤ D.xMax) →
            mccw.grid Y X = m.grid Y X)) := by
  obtain ⟨D, hD, hx4, hy4⟩ := districts_dims d hd
  obtain ⟨mcw, hcw⟩ := rotate_isSome m ⟨d, 2⟩ D hD
  obtain ⟨mccw, hccw⟩ := rotate_isSome m ⟨d, 1⟩ D hD
  refine ⟨D, hD, ⟨mcw, hcw, ?_, ?_⟩, ⟨mccw, hccw, ?_, ?_⟩⟩
  · intro x y hxlt hylt
    exact rotate_cw_rel m d D hD mcw hcw y x hylt hxlt
  · intro Y X h
    exact rotate_outside_rel m ⟨d, 2⟩ D hD mcw hcw Y X (by omega)
  · intro x y hxlt hylt
    exact rotate_ccw_rel m d D hD mccw hccw y x hylt hxlt
  · intro Y X h
    exact rotate_outside_rel m ⟨d, 1⟩ D hD mccw hccw Y X (by omega)

/-- Witness for C8 on the concrete `witnessMaze` with district 1. -/
theorem rotate_spec_witness :
    ((1 : Int) ≤ 1 ∧ (1 : Int) ≤ 9) ∧
      (∃ D, districts 1 = some D ∧
        (∃ mcw, witnessMaze.rotate ⟨1, 2⟩ = some mcw ∧
          (∀ x y, x < 5 → y < 5 →
            mcw.grid (D.yMin + y) (D.xMin + x)
              = witnessMaze.grid (D.yMin + (4 - x)) (D.xMin + y))
          ∧ (∀ Y X, ¬(D.yMin ≤ Y ∧ Y ≤ D.yMax ∧ D.xMin ≤ X ∧ X ≤ D.xMax) →
              mcw.grid Y X = witnessMaze.grid Y X))
        ∧ (∃ mccw, witnessMaze.rotate ⟨1, 1⟩ = some mccw ∧
          (∀ x y, x < 5 → y < 5 →
            mccw.grid (D.yMin + y) (D.xMin + x)
              = witnessMaze.grid (D.yMin + x) (D.xMin + (4 - y)))
          ∧ (∀ Y X, ¬(D.yMin ≤ Y ∧ Y ≤ D.yMax ∧ D.xMin ≤ X ∧ X ≤ D.xMax) →
              mccw.grid Y X = witnessMaze.grid Y X))) :=
  ⟨by decide, rotate_spec witnessMaze 1 (by decide)⟩

/-- **C9.** For every grid and district id 1..9, four successive clockwise
rotations restore every tile, and a clockwise rotation followed by a
counter-clockwise rotation of the same district is the identity on every tile. -/
theorem rotate_four_and_inverse (m : Maze) (d : Int) (hd : 1 ≤ d ∧ d ≤ 9) :
    (∃ m1 m2 m3 m4,
        m.rotate ⟨d, 2⟩ = some m1 ∧ m1.rotate ⟨d, 2⟩ = some m2 ∧
        m2.rotate ⟨d, 2⟩ = some m3 ∧ m3.rotate ⟨d, 2⟩ = some m4 ∧
        ∀ Y X, m4.grid Y X = m.grid Y X)
    ∧ (∃ mc md, m.rotate ⟨d, 2⟩ = some mc ∧ mc.rotate ⟨d, 1⟩ = some md ∧
        ∀ Y X, md.grid Y X = m.grid Y X) := by
  obtain ⟨D, hD, hx4, hy4⟩ := districts_dims d hd
  obtain ⟨m1, h1⟩ := rotate_isSome m ⟨d, 2⟩ D hD
  obtain ⟨m2, h2⟩ := rotate_isSome m1 ⟨d, 2⟩ D hD
  obtain ⟨m3, h3⟩ := rotate_isSome m2 ⟨d, 2⟩ D hD
  obtain ⟨m4, h4⟩ := rotate_isSome m3 ⟨d, 2⟩ D hD
  obtain ⟨md, hdc⟩ := rotate_isSome m1 ⟨d, 1⟩ D hD
  have inside4 : ∀ a b, a < 5 → b < 5 →
      m4.grid (D.yMin + a) (D.xMin + b) = m.grid (D.yMin + a) (D.xMin + b) := by
    intro a b ha hb
    rw [rotate_cw_rel m3 d D hD m4 h4 a b ha hb,
      rotate_cw_rel m2 d D hD m3 h3 (4 - b) a (by omega) ha,
      rotate_cw_rel m1 d D hD m2 h2 (4 - a) (4 - b) (by omega) (by omega),
      rotate_cw_rel m d D hD m1 h1 (4 - (4 - b)) (4 - a) (by omega) (by omega),
      show 4 - (4 - b) = b from by omega, show 4 - (4 - a) = a from by omega]
  have insideInv : ∀ a b, a < 5 → b < 5 →
      md.grid (D.yMin + a) (D.xMin + b) = m.grid (D.yMin + a) (D.xMin + b) := by
    intro a b ha hb
    rw [rotate_ccw_rel m1 d D hD md hdc a b ha hb,
      rotate_cw_rel m d D hD m1 h1 b (4 - a) hb (by omega),
      show 4 - (4 - a) = a from by omega]
  have point4 : ∀ Y X, m4.grid Y X = m.grid Y X := by
    intro Y X
    by_cases h : D.yMin ≤ Y ∧ Y < D.yMin + 5 ∧ D.xMin ≤ X ∧ X < D.xMin + 5
    · obtain ⟨hY, hY5, hX, hX5⟩ := h
      have := inside4 (Y - D.yMin) (X - D.xMin) (by omega) (by omega)
      rwa [show D.yMin + (Y - D.yMin) = Y from by omega,
        show D.xMin + (X - D.xMin) = X from by omega] at this
    · rw [rotate_outside_rel m3 ⟨d, 2⟩ D hD m4 h4 Y X h,
        rotate_outside_rel m2 ⟨d, 2⟩ D hD m3 h3 Y X h,
        rotate_outside_rel m1 ⟨d, 2⟩ D hD m2 h2 Y X h,
        rotate_outside_rel m ⟨d, 2⟩ D hD m1 h1 Y X h]
  have pointInv : ∀ Y X, md.grid Y X = m.grid Y X := by
    intro Y X
    by_cases h : D.yMin ≤ Y ∧ Y < D.yMin + 5 ∧ D.xMin ≤ X ∧ X < D.xMin + 5
    · obtain ⟨hY, hY5, hX, hX5⟩ := h
      have := insideInv (Y - D.yMin) (X - D.xMin) (by omega) (by omega)
      rwa [show D.yMin + (Y - D.yMin) = Y from by omega,
        show D.xMin + (X - D.xMin) = X from by omega] at this
    · rw [rotate_outside_rel m1 ⟨d, 1⟩ D hD md hdc Y X h,
        rotate_outside_rel m ⟨d, 2⟩ D hD m1 h1 Y X h]
  exact ⟨⟨m1, m2, m3, m4, h1, h2, h3, h4, point4⟩, ⟨m1, md, h1, hdc, pointInv⟩⟩

/-- Witness for C9 on the concrete `witnessMaze` with district 5. -/
theorem rotate_four_and_inverse_witness :
    ((1 : Int) ≤ 5 ∧ (5 : Int) ≤ 9) ∧
      ((∃ m1 m2 m3 m4,
          witnessMaze.rotate ⟨5, 2⟩ = some m1 ∧ m1.rotate ⟨5, 2⟩ = some m2 ∧
          m2.rotate ⟨5, 2⟩ = some m3 ∧ m3.rotate ⟨5, 2⟩ = some m4 ∧
          ∀ Y X, m4.grid Y X = witnessMaze.grid Y X)
      ∧ (∃ mc md, witnessMaze.rotate ⟨5, 2⟩ = some mc ∧ mc.rotate ⟨5, 1⟩ = some md ∧
          ∀ Y X, md.grid Y X = witnessMaze.grid Y X)) :=
  ⟨by decide, rotate_four_and_inverse witnessMaze 5 (by decide)⟩

/-- **C4.** For every maze, calling `findShortestPath` with level 2 — the level
`determineLevel` assigns to every solvable maze containing traps — returns
`None` (the dispatcher's unconditional `return None` precedes its call to
`findShortestPathComplex`), regardless of the maze, the par, the start branch
or the coordinates. -/
theorem findShortestPath_level2_none (m : Maze) (par : Option Nat)
    (startBranch : Option Branch) (startCoords endCoords : Option Coords)
    (fuel : Nat) :
    m.findShortestPath par startBranch startCoords endCoords (some 2) fuel
      = some none := by
  unfold Maze.findShortestPath Maze.findShortestPathAtLevel
  cases startBranch <;> cases startCoords <;> cases endCoords <;> rfl

/-- **C6 (amended).** With a supplied non-zero par, the expansion guard of
`findShortestPathSimple` and `findShortestPathComplex` skips a branch exactly
when its score plus the taxicab distance from its position to the escape
strictly exceeds par; consequently a branch whose score strictly exceeds par is
always skipped, and a branch whose score meets or exceeds par is skipped
whenever it is not standing on the escape cell — but a branch with score equal
to par standing on the escape cell is still expanded. -/
theorem pruneGuard_spec (p : Nat) (hp : 0 < p) (score : Nat)
    (pos endCoords : Coords) :
    (pruneGuard (some p) score pos endCoords
        = decide (p < score + taxicabDistance pos endCoords))
    ∧ (p < score → pruneGuard (some p) score pos endCoords = true)
    ∧ (p ≤ score → pos ≠ endCoords → pruneGuard (some p) score pos endCoords = true)
    ∧ (score = p → pos = endCoords → pruneGuard (some p) score pos endCoords = false) := by
  have hguard : pruneGuard (some p) score pos endCoords
      = decide (p < score + taxicabDistance pos endCoords) := by
    show (if p = 0 then false else decide (p < score + taxicabDistance pos endCoords))
      = decide (p < score + taxicabDistance pos endCoords)
    rw [if_neg (by omega)]
  have htaxi : pos ≠ endCoords → 1 ≤ taxicabDistance pos endCoords := by
    intro hne
    rcases pos with ⟨px, py⟩
    rcases endCoords with ⟨ex, ey⟩
    simp only [taxicabDistance]
    have hne2 : ¬(px = ex ∧ py = ey) := by
      intro ⟨h1, h2⟩; exact hne (by rw [h1, h2])
    omega
  refine ⟨hguard, ?_, ?_, ?_⟩
  · intro h
    rw [hguard]
    simp only [decide_eq_true_eq]
    omega
  · intro h hne
    rw [hguard]
    simp only [decide_eq_true_eq]
    have := htaxi hne
    omega
  · intro hs hpos
    subst hs hpos
    rw [hguard]
    simp only [decide_eq_false_iff_not, not_lt]
    unfold taxicabDistance
    omega

/-- Witness for the amended C6 at p = 2, score = 3, positions (0,0) and (1,0). -/
theorem pruneGuard_spec_witness :
    0 < 2 ∧
      ((pruneGuard (some 2) 3 ⟨0, 0⟩ ⟨1, 0⟩
          = decide (2 < 3 + taxicabDistance ⟨0, 0⟩ ⟨1, 0⟩))
      ∧ (2 < 3 → pruneGuard (some 2) 3 ⟨0, 0⟩ ⟨1, 0⟩ = true)
      ∧ (2 ≤ 3 → (⟨0, 0⟩ : Coords) ≠ ⟨1, 0⟩ →
          pruneGuard (some 2) 3 ⟨0, 0⟩ ⟨1, 0⟩ = true)
      ∧ (3 = 2 → (⟨0, 0⟩ : Coords) = ⟨1, 0⟩ →
          pruneGuard (some 2) 3 ⟨0, 0⟩ ⟨1, 0⟩ = false)) :=
  ⟨by decide, pruneGuard_spec 2 (by decide) 3 ⟨0, 0⟩ ⟨1, 0⟩⟩

/-- **C6 (counterexample).** A branch standing on the escape cell with score
equal to the supplied par is not skipped: the guard evaluates to false there,
and one `findShortestPathSimple` pass on `tinyMaze` with par 1 expands such a
branch (the branch list grows), where the claim says every branch with score
at or above par is pruned from expansion. -/
theorem pruneGuard_escape_counterexample :
    (Branch.mk [Action.step ⟨⟨"right", "2", ⟨1, 0⟩⟩, 1, some false⟩] ⟨2, 1⟩ true).score = 1
    ∧ pruneGuard (some 1) 1 ⟨2, 1⟩ ⟨2, 1⟩ = false
    ∧ (passSimple tinyMaze (some 1) ⟨2, 1⟩
        [⟨[Action.step ⟨⟨"right", "2", ⟨1, 0⟩⟩, 1, some false⟩], ⟨2, 1⟩, true⟩]).length = 2 := by
  refine ⟨by decide, by decide, ?_⟩
  decide

/-- **C7.** `determineLevel` returns 3 exactly when the Tier-1 search on the
trap-cleared grid finds no path from start to escape; when such a path exists
it returns 2 exactly when a trap tile is present and 1 exactly when none is
(both read off the same run, fuel-indexed like the search it wraps). -/
theorem determineLevel_spec (m : Maze) (fuel : Nat) (lvl : Nat)
    (h : m.determineLevel fuel = some lvl) :
    (lvl = 3 ↔ findShortestPathSimple m.withoutTraps none ⟨[], m.startCoords, true⟩
        m.escapeCoords fuel = some none)
    ∧ (lvl ≠ 3 →
        ((lvl = 2 ↔ m.trapsPresent = true) ∧ (lvl = 1 ↔ m.trapsPresent = false))) := by
  unfold Maze.determineLevel at h
  cases heq : findShortestPathSimple m.withoutTraps none ⟨[], m.startCoords, true⟩
      m.escapeCoords fuel with
  | none => rw [heq] at h; exact absurd h (by simp)
  | some r =>
    rw [heq] at h
    cases r with
    | none =>
      have h2 : (if (none : Option Branch) = none then (some 3 : Option Nat)
          else if m.trapsPresent = true then some 2 else some 1) = some lvl := h
      rw [if_pos rfl] at h2
      have hl : lvl = 3 := by injection h2 with h3; omega
      subst hl
      exact ⟨by simp [heq], fun h3 => absurd rfl h3⟩
    | some b =>
      have h2 : (if (some b : Option Branch) = none then (some 3 : Option Nat)
          else if m.trapsPresent = true then some 2 else some 1) = some lvl := h
      rw [if_neg (show ¬(some b : Option Branch) = none by simp)] at h2
      by_cases ht : m.trapsPresent = true
      · rw [if_pos ht] at h2
        have hl : lvl = 2 := by injection h2 with h3; omega
        subst hl
        refine ⟨⟨fun h3 => by omega, fun habs => ?_⟩,
          fun _ => ⟨by simp [ht], by simp [ht]⟩⟩
        exact absurd habs (by simp)
      · rw [if_neg ht] at h2
        have hl : lvl = 1 := by injection h2 with h3; omega
        subst hl
        have ht2 : m.trapsPresent = false := by simpa using ht
        refine ⟨⟨fun h3 => by omega, fun habs => ?_⟩,
          fun _ => ⟨by simp [ht2], by simp [ht2]⟩⟩
        exact absurd habs (by simp)

/-- Witness for C7: `tinyMaze` classifies as level 1 within fuel 5. -/
theorem determineLevel_spec_witness :
    tinyMaze.determineLevel 5 = some 1 ∧
      ((1 = 3 ↔ findShortestPathSimple tinyMaze.withoutTraps none
          ⟨[], tinyMaze.startCoords, true⟩ tinyMaze.escapeCoords 5 = some none)
      ∧ (1 ≠ 3 →
          ((1 = 2 ↔ tinyMaze.trapsPresent = true)
            ∧ (1 = 1 ↔ tinyMaze.trapsPresent = false)))) :=
  ⟨by decide, determineLevel_spec tinyMaze 5 1 (by decide)⟩

theorem unitReach_mono (m : Maze) (n k : Nat) (c : Coords) (hnk : n ≤ k)
    (h : unitReach m n c = true) : unitReach m k c = true := by
  induction k with
  | zero =>
    have : n = 0 := by omega
    subst this; exact h
  | succ k ih =>
    rcases Nat.eq_or_lt_of_le hnk with heq | hlt
    · subst heq; exact h
    · have := ih (by omega)
      simp only [unitReach, Bool.or_eq_true]
      exact Or.inl this

theorem unitReach_start_or_path (m : Maze) (n : Nat) (c : Coords)
    (h : unitReach m n c = true) : c = m.startCoords ∨ m.isPath c = true := by
  induction n with
  | zero => simpa [unitReach] using Or.inl (by simpa [unitReach] using h)
  | succ n ih =>
    simp only [unitReach, Bool.or_eq_true, Bool.and_eq_true] at h
    rcases h with h | ⟨hp, _⟩
    · exact ih h
    · exact Or.inr hp

/-- Stepping the ray one further is one `addStep` of distance 1. -/
theorem rayPoint_succ (c : Coords) (rd : Direction) (i : Nat) :
    rayPoint c rd (i + 1) = (rayPoint c rd i).addStep ⟨rd, 1, none⟩ := by
  simp only [rayPoint, Coords.addStep, Coords.mk.injEq]
  constructor <;> push_cast <;> ring

/-- One unit move extends reachability: from a reachable cell, a `Directions`
move landing on a path cell is reachable with one more step. -/
theorem unitReach_step (m : Maze) (n : Nat) (p : Coords) (d : Direction)
    (hd : d ∈ Directions) (hreach : unitReach m n p = true)
    (hpath : m.isPath (p.addStep ⟨d, 1, none⟩) = true) :
    unitReach m (n + 1) (p.addStep ⟨d, 1, none⟩) = true := by
  obtain ⟨bd, hbd, hback⟩ := back_direction d hd
  have hb : (rayPoint p d 1).addStep ⟨bd, 1, none⟩ = p := by
    rw [hback p 1 le_rfl, rayPoint_zero]
  simp only [unitReach, Bool.or_eq_true, Bool.and_eq_true]
  refine Or.inr ⟨hpath, ?_⟩
  rw [List.any_eq_true]
  refine ⟨bd, hbd, ?_⟩
  show unitReach m n ((rayPoint p d 1).addStep ⟨bd, 1, none⟩) = true
  rw [hb]
  exact hreach

theorem walkable_false_eq_isPath (m : Maze) (c : Coords) :
    m.walkable false c = m.isPath c := by
  simp [Maze.walkable]

/-- Decomposition of a trap-blind `findSteps` move into unit moves: the whole
ray is `isPath`, so the endpoint is reachable in `cellNumber` more unit steps. -/
theorem unitReach_addStep_of_findSteps (m : Maze) (p : Coords) (step : Step)
    (hmem : step ∈ m.findSteps p false) (hstart : m.isPath p = true)
    (n : Nat) (hreach : unitReach m n p = true) :
    unitReach m (n + step.cellNumber) (p.addStep step) = true := by
  have hw : m.walkable false p = true := by
    rw [walkable_false_eq_isPath]; exact hstart
  rw [findSteps_mem_iff m false p hw step] at hmem
  obtain ⟨hdir, hn1, _, hchain, _⟩ := hmem
  have key : ∀ i, i ≤ step.cellNumber →
      unitReach m (n + i) (rayPoint p step.direction i) = true := by
    intro i
    induction i with
    | zero =>
      intro _
      rw [rayPoint_zero]
      simpa using hreach
    | succ i ih =>
      intro hle
      have hreach_i := ih (by omega)
      have hpath_next : m.isPath (rayPoint p step.direction (i + 1)) = true := by
        rw [← walkable_false_eq_isPath]
        exact hchain (i + 1) (by omega) hle
      rw [rayPoint_succ]
      exact unitReach_step m (n + i) (rayPoint p step.direction i) step.direction
        hdir hreach_i (by rw [← rayPoint_succ]; exact hpath_next)
  have := key step.cellNumber le_rfl
  have haddr : p.addStep step = rayPoint p step.direction step.cellNumber := rfl
  rw [haddr]
  exact this

/-- A `findSteps` move leaves the current position (its direction vector is a
unit vector and its distance is at least 1). -/
theorem addStep_ne_of_findSteps (m : Maze) (incl : Bool) (p : Coords) (step : Step)
    (hstart : m.walkable incl p = true)
    (hmem : step ∈ m.findSteps p incl) : p.addStep step ≠ p := by
  rw [findSteps_mem_iff m incl p hstart step] at hmem
  obtain ⟨hdir, hn1, _, _, _⟩ := hmem
  have haddr : p.addStep step = rayPoint p step.direction step.cellNumber := rfl
  rw [haddr]
  simp only [Directions, List.mem_cons, List.not_mem_nil, or_false] at hdir
  rcases p with ⟨px, py⟩
  intro hcontra
  rcases hdir with h | h | h | h <;> rw [h] at hcontra <;>
    simp only [rayPoint, Coords.addStep, Coords.mk.injEq] at hcontra <;> omega

theorem covers_self (bs : List Branch) : Covers bs bs :=
  fun b hb => ⟨b, hb, rfl, le_rfl⟩

theorem Covers.comp {a b c : List Branch} (h1 : Covers a b) (h2 : Covers b c) :
    Covers a c := by
  intro x hx
  obtain ⟨y, hy, hypos, hyle⟩ := h1 x hx
  obtain ⟨z, hz, hzpos, hzle⟩ := h2 y hy
  exact ⟨z, hz, by rw [hzpos, hypos], le_trans hzle hyle⟩

theorem posUnique_eq_of_mem {bs : List Branch} (h : PosUnique bs)
    {b1 b2 : Branch} (h1 : b1 ∈ bs) (h2 : b2 ∈ bs)
    (hpos : b1.currentPos = b2.currentPos) : b1 = b2 := by
  induction bs with
  | nil => cases h1
  | cons a t ih =>
    simp only [PosUnique] at h
    rw [List.pairwise_cons] at h
    rcases List.mem_cons.mp h1 with rfl | h1t
    · rcases List.mem_cons.mp h2 with rfl | h2t
      · rfl
      · exact absurd hpos (h.1 b2 h2t)
    · rcases List.mem_cons.mp h2 with rfl | h2t
      · exact absurd hpos.symm (h.1 b1 h1t)
      · exact ih h.2 h1t h2t

theorem posUnique_erase_ne {bs : List Branch} (h : PosUnique bs)
    {other : Branch} (hmem : other ∈ bs) :
    ∀ x ∈ bs.erase other, x.currentPos ≠ other.currentPos := by
  induction bs with
  | nil => cases hmem
  | cons a t ih =>
    simp only [PosUnique] at h
    rw [List.pairwise_cons] at h
    intro x hx
    rw [List.erase_cons] at hx
    by_cases hao : (a == other) = true
    · rw [if_pos hao] at hx
      have hao2 : a = other := by simpa using hao
      subst hao2
      exact fun hc => (h.1 x hx) hc.symm
    · rw [if_neg hao] at hx
      have hao2 : ¬(a = other) := by simpa using hao
      have hot : other ∈ t := by
        rcases List.mem_cons.mp hmem with h' | h'
        · exact absurd h'.symm hao2
        · exact h'
      rcases List.mem_cons.mp hx with rfl | hxt
      · exact h.1 other hot
      · exact ih h.2 hot x hxt

theorem visitFold_no_match (newBranch : Branch) (l : List Branch)
    (st : List Branch × Bool)
    (hl : ∀ x ∈ l, x.currentPos ≠ newBranch.currentPos) :
    l.foldl (visitFold newBranch) st = st := by
  induction l generalizing st with
  | nil => rfl
  | cons a t ih =>
    rw [List.foldl_cons]
    rw [show visitFold newBranch st a = st from
      by unfold visitFold; rw [if_neg (hl a (by simp))]]
    exact ih st fun x hx => hl x (by simp [hx])

/-- Behaviour of `updateVisit` on a position-unique list: append the new branch
when its position is fresh, replace a strictly worse occupant, or do nothing. -/
theorem updateVisit_char (branch newBranch : Branch) (bs : List Branch)
    (huniq : PosUnique bs) (hne : branch.currentPos ≠ newBranch.currentPos) :
    updateVisit branch newBranch bs =
      match bs.find? (fun b => b.currentPos == newBranch.currentPos) with
      | none => bs ++ [newBranch]
      | some other =>
        if newBranch.score < other.score then bs.erase other ++ [newBranch]
        else bs := by
  cases hfind : bs.find? (fun b => b.currentPos == newBranch.currentPos) with
  | none =>
    have hnomatch : ∀ x ∈ bs, x.currentPos ≠ newBranch.currentPos := by
      intro x hx
      have := List.find?_eq_none.mp hfind x hx
      simpa using this
    unfold updateVisit
    rw [visitFold_no_match newBranch _ (bs, true)
      (fun x hx => hnomatch x (List.mem_filter.mp hx).1)]
    rfl
  | some other =>
    have hpos : other.currentPos = newBranch.currentPos := by
      have := List.find?_some hfind
      simpa using this
    have hmem : other ∈ bs := List.mem_of_find?_eq_some hfind
    have hob : other ≠ branch := by
      intro hcontra
      rw [hcontra] at hpos
      exact hne hpos
    have hmemf : other ∈ bs.filter (fun b => b ≠ branch) :=
      List.mem_filter.mpr ⟨hmem, by simpa using hob⟩
    obtain ⟨l1, l2, hsplit⟩ := List.append_of_mem hmemf
    have hpairf : PosUnique (bs.filter (fun b => b ≠ branch)) :=
      List.Pairwise.sublist (List.filter_sublist bs) huniq
    rw [hsplit] at hpairf
    simp only [PosUnique] at hpairf
    rw [List.pairwise_append] at hpairf
    have hl1 : ∀ x ∈ l1, x.currentPos ≠ newBranch.currentPos := by
      intro x hx
      rw [← hpos]
      exact hpairf.2.2 x hx other (by simp)
    have hl2 : ∀ x ∈ l2, x.currentPos ≠ newBranch.currentPos := by
      intro x hx
      rw [← hpos]
      intro hc
      have := (List.pairwise_cons.mp hpairf.2.1).1 x hx
      exact this hc.symm
    unfold updateVisit
    rw [hsplit, List.foldl_append, visitFold_no_match newBranch l1 (bs, true) hl1,
      List.foldl_cons]
    rw [show visitFold newBranch (bs, true) other =
        (if newBranch.score < other.score then (bs ++ [newBranch]).erase other
         else bs, false) from by unfold visitFold; rw [if_pos hpos]]
    rw [visitFold_no_match newBranch l2 _ hl2]
    by_cases hsc : newBranch.score < other.score
    · rw [if_pos hsc]
      simp only [Bool.false_eq_true, if_false]
      rw [if_pos hsc, List.erase_append_left _ hmem]
    · rw [if_neg hsc]
      simp only [Bool.false_eq_true, if_false]
      rw [if_neg hsc]

/-- The four facts about one `updateVisit` call: position-uniqueness is kept,
the old list stays covered, the new branch's position is covered at its score
or better, and every element of the result is an old element or the new
branch. -/
theorem updateVisit_props (branch newBranch : Branch) (bs : List Branch)
    (huniq : PosUnique bs) (hne : branch.currentPos ≠ newBranch.currentPos) :
    PosUnique (updateVisit branch newBranch bs)
    ∧ Covers bs (updateVisit branch newBranch bs)
    ∧ (∃ b2 ∈ updateVisit branch newBranch bs,
        b2.currentPos = newBranch.currentPos ∧ b2.score ≤ newBranch.score)
    ∧ (∀ b ∈ updateVisit branch newBranch bs, b ∈ bs ∨ b = newBranch) := by
  rw [updateVisit_char branch newBranch bs huniq hne]
  cases hfind : bs.find? (fun b => b.currentPos == newBranch.currentPos) with
  | none =>
    have hnomatch : ∀ x ∈ bs, x.currentPos ≠ newBranch.currentPos := by
      intro x hx
      have := List.find?_eq_none.mp hfind x hx
      simpa using this
    refine ⟨?_, ?_, ?_, ?_⟩
    · simp only [PosUnique]
      rw [List.pairwise_append]
      exact ⟨huniq, List.pairwise_singleton _ _,
        fun a ha b hb => by rw [List.mem_singleton] at hb; subst hb; exact hnomatch a ha⟩
    · intro b hb
      exact ⟨b, List.mem_append_left _ hb, rfl, le_rfl⟩
    · exact ⟨newBranch, List.mem_append_right _ (by simp), rfl, le_rfl⟩
    · intro b hb
      rcases List.mem_append.mp hb with h | h
      · exact Or.inl h
      · exact Or.inr (by simpa using h)
  | some other =>
    have hpos : other.currentPos = newBranch.currentPos := by
      have := List.find?_some hfind
      simpa using this
    have hmem : other ∈ bs := List.mem_of_find?_eq_some hfind
    have hred : (match some other with
        | none => bs ++ [newBranch]
        | some other => if newBranch.score < other.score then
            bs.erase other ++ [newBranch] else bs)
        = if newBranch.score < other.score then bs.erase other ++ [newBranch]
          else bs := rfl
    rw [hred]
    by_cases hsc : newBranch.score < other.score
    · rw [if_pos hsc]
      have herase : ∀ x ∈ bs.erase other, x.currentPos ≠ newBranch.currentPos := by
        intro x hx
        rw [← hpos]
        exact posUnique_erase_ne huniq hmem x hx
      refine ⟨?_, ?_, ?_, ?_⟩
      · simp only [PosUnique]
        rw [List.pairwise_append]
        refine ⟨List.Pairwise.sublist (List.erase_sublist other bs) huniq,
          List.pairwise_singleton _ _, ?_⟩
        intro a ha b hb
        rw [List.mem_singleton] at hb
        subst hb
        exact herase a ha
      · intro b hb
        by_cases hbo : b = other
        · subst hbo
          exact ⟨newBranch, List.mem_append_right _ (by simp), hpos.symm, le_of_lt hsc⟩
        · exact ⟨b, List.mem_append_left _ ((List.mem_erase_of_ne hbo).mpr hb),
            rfl, le_rfl⟩
      · exact ⟨newBranch, List.mem_append_right _ (by simp), rfl, le_rfl⟩
      · intro b hb
        rcases List.mem_append.mp hb with h | h
        · exact Or.inl (List.mem_of_mem_erase h)
        · exact Or.inr (by simpa using h)
    · rw [if_neg hsc]
      exact ⟨huniq, covers_self bs,
        ⟨other, hmem, hpos, by omega⟩, fun b hb => Or.inl hb⟩

theorem score_snoc_step (acts : List Action) (s : Step) (pos : Coords) (f : Bool) :
    (Branch.mk (acts ++ [Action.step s]) pos f).score = actionsScore acts + s.cellNumber := by
  rw [Branch.score_eq]
  simp only [actionsScore_append]
  congr 1
  simp [actionsScore, Action.cost]

theorem isPath_of_branchOk (m : Maze) (b : Branch) (hok : BranchOk m b)
    (hstart : m.isPath m.startCoords = true) : m.isPath b.currentPos = true := by
  rcases unitReach_start_or_path m b.score b.currentPos hok.2 with h | h
  · rw [h]; exact hstart
  · exact h

theorem branchOk_expand (m : Maze) (branch : Branch) (step : Step)
    (hok : BranchOk m branch) (hpath : m.isPath branch.currentPos = true)
    (hmem : step ∈ m.findSteps branch.currentPos false) :
    BranchOk m ⟨branch.actions ++ [Action.step step],
      branch.currentPos.addStep step, true⟩ := by
  constructor
  · intro a ha
    rcases List.mem_append.mp ha with h | h
    · exact hok.1 a h
    · rw [List.mem_singleton] at h
      subst h
      rfl
  · show unitReach m (Branch.mk (branch.actions ++ [Action.step step])
      (branch.currentPos.addStep step) true).score (branch.currentPos.addStep step) = true
    rw [score_snoc_step]
    have := unitReach_addStep_of_findSteps m branch.currentPos step hmem hpath
      branch.score hok.2
    rw [Branch.score_eq] at this
    exact this

/-- Invariant pack through the step fold of `expandSimple`: uniqueness, coverage
of the old list, `BranchOk` everywhere, no flag-cleared newcomers, and coverage
of every processed step's destination at the parent's score plus the step's
distance. -/
theorem expandSimple_fold_props (m : Maze) (branch : Branch)
    (hok : BranchOk m branch) (hpath : m.isPath branch.currentPos = true) :
    ∀ (l : List Step) (bs : List Branch),
      (∀ s ∈ l, s ∈ m.findSteps branch.currentPos false) →
      PosUnique bs → (∀ b ∈ bs, BranchOk m b) →
      (PosUnique (l.foldl (fun bs step =>
          updateVisit branch ⟨branch.actions ++ [Action.step step],
            branch.currentPos.addStep step, true⟩ bs) bs)
      ∧ Covers bs (l.foldl (fun bs step =>
          updateVisit branch ⟨branch.actions ++ [Action.step step],
            branch.currentPos.addStep step, true⟩ bs) bs)
      ∧ (∀ b ∈ (l.foldl (fun bs step =>
          updateVisit branch ⟨branch.actions ++ [Action.step step],
            branch.currentPos.addStep step, true⟩ bs) bs), BranchOk m b)
      ∧ (∀ b ∈ (l.foldl (fun bs step =>
          updateVisit branch ⟨branch.actions ++ [Action.step step],
            branch.currentPos.addStep step, true⟩ bs) bs), b ∈ bs ∨ b.new = true)
      ∧ (∀ s ∈ l, ∃ b2 ∈ (l.foldl (fun bs step =>
          updateVisit branch ⟨branch.actions ++ [Action.step step],
            branch.currentPos.addStep step, true⟩ bs) bs),
          b2.currentPos = branch.currentPos.addStep s
            ∧ b2.score ≤ branch.score + s.cellNumber)) := by
  intro l
  induction l with
  | nil =>
    intro bs _ huniq hoks
    exact ⟨huniq, covers_self bs, hoks, fun b hb => Or.inl hb, by simp⟩
  | cons s t ih =>
    intro bs hl huniq hoks
    have hsmem : s ∈ m.findSteps branch.currentPos false := hl s (by simp)
    have hwalk : m.walkable false branch.currentPos = true := by
      rw [walkable_false_eq_isPath]; exact hpath
    have hne : branch.currentPos
        ≠ (Branch.mk (branch.actions ++ [Action.step s])
            (branch.currentPos.addStep s) true).currentPos := by
      show branch.currentPos ≠ branch.currentPos.addStep s
      exact fun h => (addStep_ne_of_findSteps m false branch.currentPos s hwalk hsmem) h.symm
    obtain ⟨huniq1, hcov1, hnew1, hsrc1⟩ :=
      updateVisit_props branch ⟨branch.actions ++ [Action.step s],
        branch.currentPos.addStep s, true⟩ bs huniq hne
    have hok1 : ∀ b ∈ updateVisit branch ⟨branch.actions ++ [Action.step s],
        branch.currentPos.addStep s, true⟩ bs, BranchOk m b := by
      intro b hb
      rcases hsrc1 b hb with h | h
      · exact hoks b h
      · rw [h]
        exact branchOk_expand m branch s hok hpath hsmem
    rw [List.foldl_cons]
    obtain ⟨huniqF, hcovF, hokF, hflagF, hestF⟩ :=
      ih (updateVisit branch ⟨branch.actions ++ [Action.step s],
        branch.currentPos.addStep s, true⟩ bs)
        (fun s2 hs2 => hl s2 (by simp [hs2])) huniq1 hok1
    refine ⟨huniqF, hcov1.comp hcovF, hokF, ?_, ?_⟩
    · intro b hb
      rcases hflagF b hb with h | h
      · rcases hsrc1 b h with h2 | h2
        · exact Or.inl h2
        · rw [h2]
          exact Or.inr rfl
      · exact Or.inr h
    · intro s2 hs2
      rcases List.mem_cons.mp hs2 with rfl | hs2t
      · obtain ⟨b2, hb2mem, hb2pos, hb2sc⟩ := hnew1
        obtain ⟨b3, hb3mem, hb3pos, hb3sc⟩ := hcovF b2 hb2mem
        refine ⟨b3, hb3mem, by rw [hb3pos, hb2pos], ?_⟩
        have hscore : (Branch.mk (branch.actions ++ [Action.step s2])
            (branch.currentPos.addStep s2) true).score
            = branch.score + s2.cellNumber := by
          rw [score_snoc_step, Branch.score_eq]
        omega
      · exact hestF s2 hs2t

theorem expandSimple_eq (m : Maze) (branch : Branch) (bs : List Branch) :
    expandSimple m branch bs
      = (m.findSteps branch.currentPos false).foldl
        (fun bs step =>
          updateVisit branch ⟨branch.actions ++ [Action.step step],
            branch.currentPos.addStep step, true⟩ bs) bs := rfl

theorem branchOk_of_fields (m : Maze) (x e : Branch)
    (hact : x.actions = e.actions) (hpos : x.currentPos = e.currentPos)
    (hok : BranchOk m e) : BranchOk m x := by
  constructor
  · rw [hact]; exact hok.1
  · have hsc : x.score = e.score := by
      rw [Branch.score_eq, Branch.score_eq, hact]
    rw [hsc, hpos]
    exact hok.2

theorem clearFlag_fields (b e : Branch) :
    (if e = b then Branch.mk b.actions b.currentPos false else e).currentPos
        = e.currentPos
    ∧ (if e = b then Branch.mk b.actions b.currentPos false else e).score = e.score
    ∧ (if e = b then Branch.mk b.actions b.currentPos false else e).actions
        = e.actions := by
  by_cases h : e = b
  · subst h
    refine ⟨by simp, ?_, by simp⟩
    simp [Branch.score_eq]
  · simp [h]

theorem clearFlag_map_props (m : Maze) (b : Branch) (bs : List Branch) :
    (PosUnique bs → PosUnique (bs.map fun e =>
        if e = b then Branch.mk b.actions b.currentPos false else e))
    ∧ Covers bs (bs.map fun e =>
        if e = b then Branch.mk b.actions b.currentPos false else e)
    ∧ Covers (bs.map fun e =>
        if e = b then Branch.mk b.actions b.currentPos false else e) bs
    ∧ ((∀ x ∈ bs, BranchOk m x) → ∀ x ∈ (bs.map fun e =>
        if e = b then Branch.mk b.actions b.currentPos false else e), BranchOk m x) := by
  refine ⟨?_, ?_, ?_, ?_⟩
  · intro huniq
    simp only [PosUnique] at huniq ⊢
    rw [List.pairwise_map]
    refine huniq.imp ?_
    intro a c h
    rw [(clearFlag_fields b a).1, (clearFlag_fields b c).1]
    exact h
  · intro e he
    exact ⟨(if e = b then Branch.mk b.actions b.currentPos false else e),
      List.mem_map_of_mem _ he, (clearFlag_fields b e).1,
      le_of_eq (clearFlag_fields b e).2.1⟩
  · intro x hx
    obtain ⟨e, he, rfl⟩ := List.mem_map.mp hx
    exact ⟨e, he, ((clearFlag_fields b e).1).symm,
      ge_of_eq (clearFlag_fields b e).2.1⟩
  · intro hoks x hx
    obtain ⟨e, he, rfl⟩ := List.mem_map.mp hx
    exact branchOk_of_fields m _ e (clearFlag_fields b e).2.2 (clearFlag_fields b e).1
      (hoks e he)

theorem passBodySimple_props (m : Maze) (endCoords : Coords)
    (hstart : m.isPath m.startCoords = true)
    (bs : List Branch) (b : Branch) (hokb : BranchOk m b)
    (hinv : SimpleInv m bs) :
    SimpleInv m (passBodySimple m none endCoords bs b)
    ∧ Covers bs (passBodySimple m none endCoords bs b) := by
  obtain ⟨huniq, hoks, hrelax⟩ := hinv
  obtain ⟨huniq2f, hcov12, hcov21, hok2f⟩ := clearFlag_map_props m b bs
  have huniq2 := huniq2f huniq
  have hok2 := hok2f hoks
  have hbody : passBodySimple m none endCoords bs b
      = expandSimple m ⟨b.actions, b.currentPos, false⟩
          (bs.map fun e => if e = b then Branch.mk b.actions b.currentPos false else e) := by
    unfold passBodySimple
    rw [if_neg (by simp [pruneGuard])]
  have hokb2 : BranchOk m (Branch.mk b.actions b.currentPos false) :=
    branchOk_of_fields m _ b rfl rfl hokb
  have hpath2 : m.isPath (Branch.mk b.actions b.currentPos false).currentPos = true :=
    isPath_of_branchOk m _ hokb2 hstart
  obtain ⟨huniqR, hcovR, hokR, hflagR, hestR⟩ :=
    expandSimple_fold_props m ⟨b.actions, b.currentPos, false⟩ hokb2 hpath2
      (m.findSteps (Branch.mk b.actions b.currentPos false).currentPos false)
      (bs.map fun e => if e = b then Branch.mk b.actions b.currentPos false else e)
      (fun s hs => hs) huniq2 hok2
  rw [hbody, expandSimple_eq]
  refine ⟨⟨huniqR, hokR, ?_⟩, hcov12.comp hcovR⟩
  intro x hx hxflag d hd hdpath
  rcases hflagR x hx with hx2 | hx2
  · obtain ⟨e, he, hxe⟩ := List.mem_map.mp hx2
    by_cases heb : e = b
    · subst heb
      rw [if_pos rfl] at hxe
      subst hxe
      have hs : (Step.mk d 1 (some (m.isTrap
          ((Branch.mk e.actions e.currentPos false).currentPos.addStep ⟨d, 1, none⟩))))
          ∈ m.findSteps (Branch.mk e.actions e.currentPos false).currentPos false := by
        rw [findSteps_mem_iff m false _ (by rw [walkable_false_eq_isPath]; exact hpath2)]
        refine ⟨hd, le_rfl, rfl, ?_, ?_⟩
        · intro i h1 h2
          have h2b : i ≤ 1 := h2
          have hieq : i = 1 := by omega
          subst hieq
          rw [walkable_false_eq_isPath]
          exact hdpath
        · intro i h1 h2
          have h2b : i < 1 := h2
          omega
      obtain ⟨b3, hb3mem, hb3pos, hb3sc⟩ := hestR _ hs
      exact ⟨b3, hb3mem, hb3pos, by simpa using hb3sc⟩
    · rw [if_neg heb] at hxe
      subst hxe
      have hxflag2 : e.new = false := hxflag
      obtain ⟨b4, hb4mem, hb4pos, hb4sc⟩ := hrelax e he hxflag2 d hd hdpath
      obtain ⟨b5, hb5mem, hb5pos, hb5sc⟩ := (hcov12.comp hcovR) b4 hb4mem
      exact ⟨b5, hb5mem, by rw [hb5pos, hb4pos], by omega⟩
  · rw [hx2] at hxflag
    cases hxflag

theorem passSimple_props (m : Maze) (endCoords : Coords)
    (hstart : m.isPath m.startCoords = true) :
    ∀ (l : List Branch) (bs : List Branch),
      (∀ x ∈ l, BranchOk m x) → SimpleInv m bs →
      SimpleInv m (l.foldl (passBodySimple m none endCoords) bs)
      ∧ Covers bs (l.foldl (passBodySimple m none endCoords) bs) := by
  intro l
  induction l with
  | nil => exact fun bs _ hinv => ⟨hinv, covers_self bs⟩
  | cons x t ih =>
    intro bs hl hinv
    rw [List.foldl_cons]
    obtain ⟨hinv1, hcov1⟩ := passBodySimple_props m endCoords hstart bs x
      (hl x (by simp)) hinv
    obtain ⟨hinvF, hcovF⟩ := ih (passBodySimple m none endCoords bs x)
      (fun y hy => hl y (by simp [hy])) hinv1
    exact ⟨hinvF, hcov1.comp hcovF⟩

theorem loopSimple_props (m : Maze) (endCoords : Coords)
    (hstart : m.isPath m.startCoords = true) :
    ∀ (fuel : Nat) (bs bsF : List Branch),
      loopSimple m none endCoords fuel bs = some bsF → SimpleInv m bs →
      SimpleInv m bsF ∧ Covers bs bsF ∧ ∀ x ∈ bsF, x.new = false := by
  intro fuel
  induction fuel with
  | zero =>
    intro bs bsF hrun hinv
    unfold loopSimple at hrun
    by_cases hany : bs.any (fun b => b.new) = true
    · rw [if_pos hany] at hrun
      cases hrun
    · rw [if_neg hany] at hrun
      cases hrun
      refine ⟨hinv, covers_self bs, ?_⟩
      intro x hx
      have hany2 : bs.any (fun b => b.new) = false := by simpa using hany
      have := List.any_eq_false.mp hany2 x hx
      simpa using this
  | succ fuel ih =>
    intro bs bsF hrun hinv
    unfold loopSimple at hrun
    by_cases hany : bs.any (fun b => b.new) = true
    · rw [if_pos hany] at hrun
      have hsnapok : ∀ x ∈ bs.filter (fun b => b.new), BranchOk m x := by
        intro x hx
        exact hinv.2.1 x (List.mem_of_mem_filter hx)
      obtain ⟨hinv1, hcov1⟩ := passSimple_props m endCoords hstart
        (bs.filter (fun b => b.new)) bs hsnapok hinv
      obtain ⟨hinvF, hcovF, hflagF⟩ := ih (passSimple m none endCoords bs) bsF hrun hinv1
      exact ⟨hinvF, hcov1.comp hcovF, hflagF⟩
    · rw [if_neg hany] at hrun
      cases hrun
      refine ⟨hinv, covers_self bs, ?_⟩
      intro x hx
      have hany2 : bs.any (fun b => b.new) = false := by simpa using hany
      have := List.any_eq_false.mp hany2 x hx
      simpa using this

/-- At the loop's fixpoint, every cell reachable by `k` unit moves carries a
branch of score at most `k`. -/
theorem reach_covered (m : Maze) (bsF : List Branch) (hinv : SimpleInv m bsF)
    (hflags : ∀ x ∈ bsF, x.new = false)
    (hstart0 : ∃ b0 ∈ bsF, b0.currentPos = m.startCoords ∧ b0.score = 0) :
    ∀ (k : Nat) (c : Coords), unitReach m k c = true →
      ∃ b ∈ bsF, b.currentPos = c ∧ b.score ≤ k := by
  intro k
  induction k with
  | zero =>
    intro c hc
    have hc2 : c = m.startCoords := by simpa [unitReach] using hc
    subst hc2
    obtain ⟨b0, hb0mem, hb0pos, hb0sc⟩ := hstart0
    exact ⟨b0, hb0mem, hb0pos, by omega⟩
  | succ k ih =>
    intro c hc
    simp only [unitReach, Bool.or_eq_true, Bool.and_eq_true, List.any_eq_true] at hc
    rcases hc with hc | ⟨hpath, d, hd, hr⟩
    · obtain ⟨b, hb, hbpos, hbsc⟩ := ih c hc
      exact ⟨b, hb, hbpos, by omega⟩
    · obtain ⟨b, hb, hbpos, hbsc⟩ := ih (c.addStep ⟨d, 1, none⟩) hr
      obtain ⟨bd, hbd, hback⟩ := back_direction d hd
      have hbpos2 : b.currentPos.addStep ⟨bd, 1, none⟩ = c := by
        rw [hbpos]
        have : (rayPoint c d 1).addStep ⟨bd, 1, none⟩ = rayPoint c d 0 :=
          hback c 1 le_rfl
        rw [rayPoint_zero] at this
        exact this
      have hpath2 : m.isPath (b.currentPos.addStep ⟨bd, 1, none⟩) = true := by
        rw [hbpos2]
        exact hpath
      obtain ⟨b2, hb2mem, hb2pos, hb2sc⟩ :=
        hinv.2.2 b hb (hflags b hb) bd hbd hpath2
      exact ⟨b2, hb2mem, by rw [hb2pos, hbpos2], by omega⟩

/-- **C3.** On a 17x17 grid without traps whose escape is reachable from the
start, every terminating run of `findShortestPathSimple` with no par (`some r`
states that the `while` loop reached its exit condition within the fuel)
returns a branch: it consists only of steps, and its score equals the
shortest-path distance from start to escape of a plain breadth-first search
over single-cell moves — the score reaches the escape (`unitReach` at the
score) and no smaller unit-move count does. -/
theorem findShortestPathSimple_bfs (m : Maze)
    (hstart : m.isPath m.startCoords = true)
    (hnotraps : m.trapsPresent = false)
    (hreach : ∃ n, unitReach m n m.escapeCoords = true)
    (fuel : Nat) (r : Option Branch)
    (hrun : findShortestPathSimple m none ⟨[], m.startCoords, true⟩
        m.escapeCoords fuel = some r) :
    ∃ br, r = some br
      ∧ (∀ a ∈ br.actions, a.isStep = true)
      ∧ unitReach m br.score m.escapeCoords = true
      ∧ ∀ k, unitReach m k m.escapeCoords = true → br.score ≤ k := by
  unfold findShortestPathSimple at hrun
  obtain ⟨bsF, hloop, hr⟩ := Option.map_eq_some'.mp hrun
  have hinv0 : SimpleInv m [⟨[], m.startCoords, true⟩] := by
    refine ⟨List.pairwise_singleton _ _, ?_, ?_⟩
    · intro b hb
      rw [List.mem_singleton] at hb
      subst hb
      refine ⟨fun a ha => absurd ha (List.not_mem_nil a), ?_⟩
      show unitReach m (Branch.mk [] m.startCoords true).score m.startCoords = true
      simp [Branch.score_eq, actionsScore, unitReach]
    · intro b hb hflag
      rw [List.mem_singleton] at hb
      subst hb
      cases hflag
  obtain ⟨hinvF, hcovF, hflagF⟩ :=
    loopSimple_props m m.escapeCoords hstart fuel _ bsF hloop hinv0
  have hstart0 : ∃ b0 ∈ bsF, b0.currentPos = m.startCoords ∧ b0.score = 0 := by
    obtain ⟨b0, hb0, hpos, hsc⟩ := hcovF ⟨[], m.startCoords, true⟩ (by simp)
    refine ⟨b0, hb0, hpos, ?_⟩
    have hzero : Branch.score ⟨[], m.startCoords, true⟩ = 0 := rfl
    omega
  have hcovreach := reach_covered m bsF hinvF hflagF hstart0
  obtain ⟨n0, hn0⟩ := hreach
  obtain ⟨bE, hbEmem, hbEpos, _⟩ := hcovreach n0 m.escapeCoords hn0
  have hfindSome : ∃ br, bsF.find? (fun b => b.currentPos = m.escapeCoords) = some br := by
    have hsome : (bsF.find? (fun b => b.currentPos = m.escapeCoords)).isSome := by
      rw [List.find?_isSome]
      exact ⟨bE, hbEmem, by simp [hbEpos]⟩
    exact Option.isSome_iff_exists.mp hsome
  obtain ⟨br, hbr⟩ := hfindSome
  have hrmem : br ∈ bsF := List.mem_of_find?_eq_some hbr
  have hrpos : br.currentPos = m.escapeCoords := by
    have := List.find?_some hbr
    simpa using this
  have hok := hinvF.2.1 br hrmem
  refine ⟨br, ?_, hok.1, ?_, ?_⟩
  · rw [← hr, hbr]
  · rw [← hrpos]; exact hok.2
  · intro k hk
    obtain ⟨b2, hb2mem, hb2pos, hb2sc⟩ := hcovreach k m.escapeCoords hk
    have hbb : b2 = br :=
      posUnique_eq_of_mem hinvF.1 hb2mem hrmem (by rw [hb2pos, hrpos])
    rw [hbb] at hb2sc
    exact hb2sc

/-- Witness for C3 on `tinyMaze` with fuel 5: the run returns the single
distance-1 step right, whose score 1 is the BFS distance. -/
theorem findShortestPathSimple_bfs_witness :
    (tinyMaze.isPath tinyMaze.startCoords = true
      ∧ tinyMaze.trapsPresent = false
      ∧ unitReach tinyMaze 1 tinyMaze.escapeCoords = true
      ∧ findShortestPathSimple tinyMaze none ⟨[], tinyMaze.startCoords, true⟩
          tinyMaze.escapeCoords 5
        = some (some ⟨[Action.step ⟨⟨"right", "2", ⟨1, 0⟩⟩, 1, some false⟩],
            ⟨2, 1⟩, false⟩))
    ∧ (∃ br, (some (Branch.mk
          [Action.step ⟨⟨"right", "2", ⟨1, 0⟩⟩, 1, some false⟩] ⟨2, 1⟩ false)
            : Option Branch) = some br
        ∧ (∀ a ∈ br.actions, a.isStep = true)
        ∧ unitReach tinyMaze br.score tinyMaze.escapeCoords = true
        ∧ ∀ k, unitReach tinyMaze k tinyMaze.escapeCoords = true → br.score ≤ k) :=
  ⟨⟨by decide, by decide, by decide, by decide⟩,
    findShortestPathSimple_bfs tinyMaze (by decide) (by decide)
      ⟨1, by decide⟩ 5
      (some ⟨[Action.step ⟨⟨"right", "2", ⟨1, 0⟩⟩, 1, some false⟩], ⟨2, 1⟩, false⟩)
      (by decide)⟩

/-- **C10.** For every coordinate with a negative component or a component at or
beyond the 17-cell bound, both `isPath` and `isTrap` return `false` as a normal
boolean outcome; the embedded functions are total, mirroring the fact that the
bounds check precedes the grid access, so no out-of-range access occurs. -/
theorem isPath_isTrap_out_of_bounds (m : Maze) (c : Coords)
    (h : outOfBounds c) : m.isPath c = false ∧ m.isTrap c = false := by
  unfold outOfBounds at h
  constructor <;>
  · simp only [Maze.isPath, Maze.isTrap]
    rw [if_pos]
    simp only [Bool.or_eq_true, decide_eq_true_eq]
    omega

/-- Witness for C10 at the concrete coordinate (-1, 5). -/
theorem isPath_isTrap_out_of_bounds_witness :
    outOfBounds ⟨-1, 5⟩ ∧
      witnessMaze.isPath ⟨-1, 5⟩ = false ∧ witnessMaze.isTrap ⟨-1, 5⟩ = false :=
  ⟨by decide, isPath_isTrap_out_of_bounds witnessMaze ⟨-1, 5⟩ (by decide)⟩

end WayOut
